import Mathlib

/-!
The journal registry of politeiad/backend/gitbe.

A shallow embedding of `journal.go`: the registry `Journal` with its four
operations `Journal` (append), `Open`, `Close` and `Replay`, together with the
parts of the Go standard library the operations run on (`strings.HasSuffix`,
`os.OpenFile`/`os.Open`/`Read`/`Write`/`Close` on regular files, and
`bufio.Scanner` with the default split function `bufio.ScanLines`).

Conventions of the embedding:

* a Go `string` / `[]byte` is a list of bytes (`Bytes`); a byte is a natural
  number, and only comparisons with `'\n'` (10) and `'\r'` (13) matter;
* a Go `error` is a value of `Error`; `nil` is `none`;
* the operations are executed one at a time (the mutex of the registry makes
  the map accesses atomic), so an operation is a function from the state
  before the call to the state after it and the returned error;
* the state is the registry map together with the operating system's files;
  the operating system may make a system call fail (`OS.fault`); a journal
  name is a path, the registry is keyed by the name as it is written, and the
  operating system decides which file a path names (`OS.resolve`), so two
  different names may be paths of one file;
* the scope of the registry lock in an append is read off `JournalTraced`,
  which lists the steps of `Journal` in the order of the source;
* the callback of `Replay` is a function from the line to the returned error;
  `Replay` additionally reports the list of lines it passed to the callback;
  a callback does not call back into the registry;
* of `bufio.Scanner` the fields `done` and `empties` are left out: the split
  function `ScanLines` never returns `ErrFinalToken` and never returns a token
  without advancing, so neither field is ever used.
-/

namespace Gitbe

set_option autoImplicit false

/-! ## Bytes, strings and errors -/

/-- One byte. -/
abbrev Byte := Nat

/-- A Go string or byte slice. -/
abbrev Bytes := List Byte

/-- The line terminator, the byte of "\n". -/
def NL : Byte := 10

/-- The carriage return, the byte of "\r". -/
def CR : Byte := 13

/-- Go error values. `ErrBusy`, `ErrNotFound` and `ErrLineTooLong` are the three
variables declared by the package (journal.go, lines 12-16); `EOF` is `io.EOF`;
`ErrTooLong` .. `ErrNoProgress` are the sentinel errors a `bufio.Scanner` can
record (`ErrNoProgress` is `io.ErrNoProgress`); `PathError` is the `*os.PathError`
of a failed system call; `custom` stands for any other error value, such as one
built by a caller with `fmt.Errorf`. -/
inductive Error where
  | ErrBusy
  | ErrNotFound
  | ErrLineTooLong
  | EOF
  | ErrTooLong
  | ErrNegativeAdvance
  | ErrAdvanceTooFar
  | ErrBadReadCount
  | ErrNoProgress
  | PathError (op : String) (path : String) (errno : Nat)
  | custom (msg : Bytes)
  deriving DecidableEq, Repr

/-- The function strings.HasSuffix: `len(s) >= len(suffix) && s[len(s)-len(suffix):] == suffix`. -/
def HasSuffix (s suffix : Bytes) : Bool :=
  decide (s.length ≥ suffix.length) && (s.drop (s.length - suffix.length) == suffix)

/-! ## The operating system: regular files addressed by path -/

/-- The system calls the package issues. -/
inductive Syscall where
  | openRead
  | openAppend
  | read
  | write
  | close
  deriving DecidableEq, Repr

/-- The operating system's side of the state: the bytes of every existing file
(`store`, a file being identified by one chosen path of it), the file every
path names (`resolve`; two paths such as "j" and "./j" may name one file), the
system calls that currently fail on a path (with their errno), and how many
bytes a failing write stores before it fails. The package never renames or
links a file, so no operation changes `resolve`. -/
structure OS where
  store : String → Option Bytes
  resolve : String → String
  fault : Syscall → String → Option Nat
  shortWrite : String → Nat

/-- The bytes of the file a path names, `none` when that file does not exist. -/
def OS.files (os : OS) (name : String) : Option Bytes :=
  os.store (os.resolve name)

/-- Replaces the bytes of the file a path names; every path of that file sees
the new bytes. -/
def OS.setFile (os : OS) (name : String) (b : Bytes) : OS :=
  { os with store := fun k => if k = os.resolve name then some b else os.store k }

/-- The errno of a missing file. -/
def ENOENT : Nat := 2

/-- An open file (`*os.File`): the path it was opened on and its read offset. -/
structure File where
  name : String
  offset : Nat
  deriving DecidableEq, Repr

/-- The call `os.OpenFile(name, os.O_RDWR|os.O_CREATE|os.O_APPEND, 0640)`:
the file is created empty when it does not exist. -/
def OpenFile (os : OS) (name : String) : Except Error (OS × File) :=
  match os.fault Syscall.openAppend name with
  | some errno => .error (Error.PathError "open" name errno)
  | none =>
    match os.files name with
    | some _ => .ok (os, { name := name, offset := 0 })
    | none =>
      .ok (os.setFile name [], { name := name, offset := 0 })

/-- The call `os.Open(name)`: read-only, fails when the file does not exist. -/
def osOpen (os : OS) (name : String) : Except Error File :=
  match os.fault Syscall.openRead name with
  | some errno => .error (Error.PathError "open" name errno)
  | none =>
    match os.files name with
    | some _ => .ok { name := name, offset := 0 }
    | none => .error (Error.PathError "open" name ENOENT)

/-- The method `(*os.File).Write` on a file opened with `O_APPEND`: the bytes go to
the end of the file; a failing write stores a prefix and reports the error. -/
def File.Write (os : OS) (f : File) (b : Bytes) : OS × Nat × Option Error :=
  let old := (os.files f.name).getD []
  match os.fault Syscall.write f.name with
  | some errno =>
    let done := b.take (os.shortWrite f.name)
    (os.setFile f.name (old ++ done),
     done.length, some (Error.PathError "write" f.name errno))
  | none =>
    (os.setFile f.name (old ++ b), b.length, none)

/-- The method `(*os.File).Read` on a regular file, into a slice of `len` bytes:
as many bytes as are left from the offset, at most `len`; `io.EOF` when none is
left and `len > 0`. -/
def File.Read (os : OS) (f : File) (len : Nat) : Bytes × Option Error × File :=
  match os.fault Syscall.read f.name with
  | some errno => ([], some (Error.PathError "read" f.name errno), f)
  | none =>
    let data := (((os.files f.name).getD []).drop f.offset).take len
    if data.length = 0 ∧ len > 0 then ([], some Error.EOF, f)
    else (data, none, { f with offset := f.offset + data.length })

/-- The method `(*os.File).Close`. -/
def File.Close (os : OS) (f : File) : Option Error :=
  match os.fault Syscall.close f.name with
  | some errno => some (Error.PathError "close" f.name errno)
  | none => none

/-! ## bufio.Scanner with bufio.ScanLines -/

/-- The constant bufio.MaxScanTokenSize. -/
def MaxScanTokenSize : Nat := 64 * 1024

/-- The constant bufio.startBufSize. -/
def startBufSize : Nat := 4096

/-- The largest `int` of a 64-bit platform. -/
def maxInt : Nat := 2 ^ 63 - 1

/-- The function bytes.IndexByte: the index of the first `c` in `data`;
Go's -1 is `none`. -/
def IndexByte : Bytes → Byte → Option Nat
  | [], _ => none
  | b :: rest, c => if b = c then some 0 else (IndexByte rest c).map (· + 1)

/-- The function bufio.dropCR: drops one terminal "\r" from the data. -/
def dropCR (data : Bytes) : Bytes :=
  if data.length > 0 ∧ data.getLast? = some CR then data.take (data.length - 1) else data

/-- The split function bufio.ScanLines: `(advance, token, err)`; a `nil` token is `none`. -/
def ScanLines (data : Bytes) (atEOF : Bool) : Nat × Option Bytes × Option Error :=
  if atEOF ∧ data.length = 0 then (0, none, none)
  else
    match IndexByte data NL with
    | some i => (i + 1, some (dropCR (data.take i)), none)
    | none => if atEOF then (data.length, some (dropCR data), none) else (0, none, none)

/-- The state of a `bufio.Scanner`. `buf` holds the bytes `s.buf[s.start:s.end]`
(the only bytes of the buffer that are ever looked at), `cap` is `len(s.buf)`,
so `s.end = start + buf.length`; `token` is the last token returned by the split
function (`nil` is the empty list); `err` is the sticky error. -/
structure Scanner where
  buf : Bytes
  start : Nat
  cap : Nat
  maxTokenSize : Nat
  token : Bytes
  err : Option Error
  deriving DecidableEq, Repr

/-- The constructor bufio.NewScanner. -/
def NewScanner : Scanner :=
  { buf := [], start := 0, cap := 0, maxTokenSize := MaxScanTokenSize, token := [], err := none }

/-- The method `(*Scanner).setErr`: records the first non-EOF error. -/
def Scanner.setErr (s : Scanner) (err : Error) : Scanner :=
  if s.err = none ∨ s.err = some Error.EOF then { s with err := some err } else s

/-- The method `(*Scanner).Err`: the first non-EOF error. -/
def Scanner.Err (s : Scanner) : Option Error :=
  if s.err = some Error.EOF then none else s.err

/-- The method `(*Scanner).Text`. -/
def Scanner.Text (s : Scanner) : Bytes := s.token

/-- The method `(*Scanner).advance`: consumes `n` bytes of the buffer
(`n` is a natural number, so Go's check `n < 0` cannot fire). -/
def Scanner.advance (s : Scanner) (n : Nat) : Bool × Scanner :=
  if n > s.buf.length then (false, s.setErr Error.ErrAdvanceTooFar)
  else (true, { s with buf := s.buf.drop n, start := s.start + n })

/-- First half of one turn of the loop of `(*Scanner).Scan`: try to cut a token
out of the buffered bytes. `some b` means that Scan returns `b`, `none` that it
goes on to read more data. -/
def Scanner.tokenStep (s : Scanner) : Option Bool × Scanner :=
  if s.buf.length > 0 ∨ s.err ≠ none then
    match ScanLines s.buf (decide (s.err ≠ none)) with
    | (_, _, some err) => (some false, s.setErr err)
    | (adv, token, none) =>
      match s.advance adv with
      | (false, s1) => (some false, s1)
      | (true, s1) =>
        match token with
        | some t => (some true, { s1 with token := t })
        | none => (none, { s1 with token := [] })
  else (none, s)

/-- The block of Scan that shifts the data to the beginning of the buffer "if
there's lots of empty space or space is needed". -/
def Scanner.shift (s : Scanner) : Scanner :=
  if s.start > 0 ∧ (s.start + s.buf.length = s.cap ∨ s.start > s.cap / 2) then
    { s with start := 0 }
  else s

/-- The block of Scan that resizes a full buffer: the size doubles (from
`startBufSize`) up to `maxTokenSize`; `none` when the full buffer cannot grow,
which is where Scan records `ErrTooLong`. -/
def Scanner.grow (s : Scanner) : Option Scanner :=
  if s.start + s.buf.length = s.cap then
    if s.cap ≥ s.maxTokenSize ∨ s.cap > maxInt / 2 then none
    else
      let newSize := if s.cap * 2 = 0 then startBufSize else s.cap * 2
      some { s with cap := min newSize s.maxTokenSize, start := 0 }
  else some s

/-- The block of Scan that reads into the free part of the buffer. A read of no
byte without an error is repeated by Go up to 100 times and then recorded as
`io.ErrNoProgress`; the reads of this file model are deterministic, so one read
decides. -/
def Scanner.fill (os : OS) (f : File) (s : Scanner) : File × Scanner :=
  match f.Read os (s.cap - (s.start + s.buf.length)) with
  | (data, some err, f1) => (f1, ({ s with buf := s.buf ++ data }).setErr err)
  | (data, none, f1) =>
    if data.length > 0 then (f1, { s with buf := s.buf ++ data })
    else (f1, s.setErr Error.ErrNoProgress)

/-- Second half of one turn of the loop of `(*Scanner).Scan`: give up when an
error is recorded, otherwise make room (shift, grow) and read from the file.
`some b` means that Scan returns `b`, `none` that the loop goes round again. -/
def Scanner.readStep (os : OS) (f : File) (s : Scanner) : Option Bool × File × Scanner :=
  if s.err ≠ none then (some false, f, { s with buf := [], start := 0 })
  else
    match s.shift.grow with
    | none => (some false, f, s.shift.setErr Error.ErrTooLong)
    | some s2 =>
      match s2.fill os f with
      | (f1, s3) => (none, f1, s3)

/-- The loop of `(*Scanner).Scan`, at most `fuel` turns. -/
def Scanner.scanLoop (os : OS) : Nat → File → Scanner → Option (Bool × File × Scanner)
  | 0, _, _ => none
  | fuel + 1, f, s =>
    match s.tokenStep with
    | (some b, s1) => some (b, f, s1)
    | (none, s1) =>
      match s1.readStep os f with
      | (some b, f2, s2) => some (b, f2, s2)
      | (none, f2, s2) => Scanner.scanLoop os fuel f2 s2

/-- The number of turns the loop of Scan can need: one per byte left in the file,
one that meets the end of the file and one that returns. -/
def scanFuel (os : OS) (f : File) : Nat :=
  ((os.files f.name).getD []).length - f.offset + 2

/-- The method `(*Scanner).Scan` on the reader `f`. The fuel `scanFuel` always
suffices (`Scan_eq_of_scanLoop`), so the last case is never taken. -/
def Scanner.Scan (os : OS) (f : File) (s : Scanner) : Bool × File × Scanner :=
  match Scanner.scanLoop os (scanFuel os f) f s with
  | some r => r
  | none => (false, f, s)

/-- The bytes of the file that the reader has not read yet. -/
def File.rest (os : OS) (f : File) : Bytes :=
  ((os.files f.name).getD []).drop f.offset

/-- The shape every scanner made by `NewScanner` keeps: the buffered bytes fit
the buffer, and the buffer never outgrows the token limit. -/
def Scanner.WF (s : Scanner) : Prop :=
  s.start + s.buf.length ≤ s.cap ∧ s.cap ≤ s.maxTokenSize ∧
    s.maxTokenSize = MaxScanTokenSize

instance (s : Scanner) : Decidable s.WF := by
  unfold Scanner.WF; infer_instance

/-! ## The registry (journal.go) -/

/-- The struct `journalFile`: an open file and the scanner reading it. -/
structure journalFile where
  file : File
  scanner : Scanner
  deriving DecidableEq, Repr

/-- The state the operations run in: the map `journals` of the struct `Journal`
and the operating system's files. The map holds each `*journalFile` by value:
`Open` stores a fresh one, and `Replay`, which mutates the scanner through the
pointer, stores the mutated one back under the same name. -/
structure State where
  os : OS
  journals : String → Option journalFile

/-- The constructor `NewJournal`: an empty registry. -/
def NewJournal (os : OS) : State :=
  { os := os, journals := fun _ => none }

/-- Lines 56-58 of journal.go, the content that `Journal` writes:
`if !strings.HasSuffix(content, "\n") { content += "\n" }`. -/
def terminated (content : Bytes) : Bytes :=
  if !HasSuffix content [NL] then content ++ [NL] else content

/-- The method `(*Journal).Journal`: append `content` to the journal `filename`.
The deferred `f.Close()` drops its result. -/
def Journal (j : State) (filename : String) (content : Bytes) : State × Option Error :=
  if (j.journals filename).isSome then (j, some Error.ErrBusy)
  else
    match OpenFile j.os filename with
    | .error err => (j, some err)
    | .ok (os1, f) =>
      match f.Write os1 (terminated content) with
      | (os2, _, err) => ({ j with os := os2 }, err)

/-- The method `(*Journal).Open`: register a replay handle for `filename`. -/
def Open (j : State) (filename : String) : State × Option Error :=
  if (j.journals filename).isSome then (j, some Error.ErrBusy)
  else
    match osOpen j.os filename with
    | .error err => (j, some err)
    | .ok f =>
      ({ j with journals := fun n =>
          if n = filename then some { file := f, scanner := NewScanner } else j.journals n },
       none)

/-- The method `(*Journal).Close`: drop the replay handle of `filename`. -/
def Close (j : State) (filename : String) : State × Option Error :=
  match j.journals filename with
  | none => (j, some Error.ErrNotFound)
  | some f =>
    ({ j with journals := fun n => if n = filename then none else j.journals n },
     f.file.Close j.os)

/-- The method `(*Journal).Replay`: scan one line of `filename` and pass it to
`replay`. The third component lists the lines passed to `replay` by this call. -/
def Replay (j : State) (filename : String) (replay : Bytes → Option Error) :
    State × Option Error × List Bytes :=
  match j.journals filename with
  | none => (j, some Error.ErrNotFound, [])
  | some f =>
    match f.scanner.Scan j.os f.file with
    | (ok, file1, scanner1) =>
      let j1 : State := { j with journals := fun n =>
        if n = filename then some { file := file1, scanner := scanner1 } else j.journals n }
      if !ok then
        if scanner1.Err = none then (j1, some Error.EOF, [])
        else (j1, scanner1.Err, [])
      else (j1, replay scanner1.Text, [scanner1.Text])

/-- The bytes an open handle has not delivered yet: the buffered bytes followed
by the bytes of the file past the read offset. -/
def journalFile.unread (os : OS) (jf : journalFile) : Bytes :=
  jf.scanner.buf ++ jf.file.rest os

/-- The invariant of the registry: every registered handle reads the file it is
registered under, and its scanner has the shape of `Scanner.WF`. -/
def State.WF (j : State) : Prop :=
  ∀ n jf, j.journals n = some jf → jf.file.name = n ∧ jf.scanner.WF

/-! ## Drivers and sample states -/


/-- An operating system with no file and no failing system call, on which every
path names a file of its own. -/
def quietOS : OS :=
  { store := fun _ => none, resolve := fun n => n, fault := fun _ _ => none,
    shortWrite := fun _ => 0 }

/-- An operating system with no file and no failing system call, on which the
path "./j" names the file "j" and every other path names a file of its own. -/
def aliasOS : OS :=
  { store := fun _ => none, resolve := fun n => if n = "./j" then "j" else n,
    fault := fun _ _ => none, shortWrite := fun _ => 0 }

/-- A registry after `Journal("j", "a")`, `Journal("j", "b")` on an empty disk. -/
def sampleWritten : State :=
  (Journal (Journal (NewJournal quietOS) "j" [97]).1 "j" [98]).1

/-- The registry `sampleWritten` after `Open("j")`. -/
def sampleOpened : State := (Open sampleWritten "j").1

/-- The registry after `Journal("j", "a\r")` and `Open("j")` on an empty disk. -/
def sampleCR : State := (Open (Journal (NewJournal quietOS) "j" [97, 13]).1 "j").1

/-- The registry `sampleOpened` after two calls of Replay on "j". -/
def sampleDrained : State :=
  (Replay (Replay sampleOpened "j" (fun _ => none)).1 "j" (fun _ => none)).1

/-- A line of `MaxScanTokenSize` bytes "a": one byte more than a scanner can hold
together with the terminator. -/
def longLine : Bytes := List.replicate MaxScanTokenSize 97

/-- The registry after `Journal("j", record)` and `Open("j")` on an empty disk. -/
def sampleOf (record : Bytes) : State :=
  (Open (Journal (NewJournal quietOS) "j" record).1 "j").1

/-- The registry after `Journal("j", longLine)` and `Open("j")` on an empty disk. -/
def sampleLong : State := sampleOf longLine

/-- The registry after `Journal("j", longLine ++ "b")` and `Open("j")` on an empty disk. -/
def sampleLonger : State := sampleOf (longLine ++ [98])

/-- An operating system with the file "j" holding "a\n", on which closing "j" fails. -/
def closeFailsOS : OS :=
  { store := fun n => if n = "j" then some [97, 10] else none,
    resolve := fun n => n,
    fault := fun c n => if c = Syscall.close ∧ n = "j" then some 5 else none,
    shortWrite := fun _ => 0 }

/-- The registry after `Open("j")` on `closeFailsOS`. -/
def sampleCloseFails : State := (Open (NewJournal closeFailsOS) "j").1

/-- Successive appends of the records to one name: the final state and the
result of every call. -/
def journalAll (j : State) (filename : String) : List Bytes → State × List (Option Error)
  | [] => (j, [])
  | r :: rs =>
    ((journalAll (Journal j filename r).1 filename rs).1,
     (Journal j filename r).2 :: (journalAll (Journal j filename r).1 filename rs).2)

/-- Successive calls of Replay on one name, one callback per call: the final
state and, for every call, the returned error and the lines passed to the callback. -/
def replayAll (j : State) (filename : String) :
    List (Bytes → Option Error) → State × List (Option Error × List Bytes)
  | [] => (j, [])
  | v :: vs =>
    ((replayAll (Replay j filename v).1 filename vs).1,
     (Replay j filename v).2 :: (replayAll (Replay j filename v).1 filename vs).2)

/-- The bytes of a journal that holds the records, one per line. -/
def linesOf (records : List Bytes) : Bytes :=
  (records.map (fun r => r ++ [NL])).flatten

/-- The pieces of the reference line split: the bytes are cut after each "\n" and
each piece is kept without its "\n"; a last piece without "\n" is kept when it is
not empty, and nothing is added after a final "\n". `piece` collects the bytes
of the piece being read. -/
def refPieces : Bytes → Bytes → List Bytes
  | piece, [] => if piece = [] then [] else [piece]
  | piece, b :: rest =>
    if b = NL then piece :: refPieces [] rest else refPieces (piece ++ [b]) rest

/-- A piece without one trailing "\r", if it has one. -/
def refStrip (piece : Bytes) : Bytes :=
  if piece.getLast? = some CR then piece.dropLast else piece

/-- The reference line split of a file content: its pieces, each without one
trailing "\r". -/
def refLines (content : Bytes) : List Bytes :=
  (refPieces [] content).map refStrip

/-- The steps of a call that matter for the scope of the registry lock: taking
and releasing the lock, reading the registry map, and the file I/O. -/
inductive Event where
  | lock
  | unlock
  | lookup (filename : String)
  | openFile (filename : String)
  | write (filename : String)
  | closeFile (filename : String)
  deriving DecidableEq, Repr

/-- The method `(*Journal).Journal` together with the sequence of its steps, in
the order of the source: `j.Lock()`, `defer j.Unlock()`, the lookup in
`j.journals`, `os.OpenFile`, `defer f.Close()`, `f.Write`; at every return the
deferred calls run last in, first out, so `f.Close()` runs before `j.Unlock()`. -/
def JournalTraced (j : State) (filename : String) (content : Bytes) :
    (State × Option Error) × List Event :=
  if (j.journals filename).isSome then
    ((j, some Error.ErrBusy), [Event.lock, Event.lookup filename, Event.unlock])
  else
    match OpenFile j.os filename with
    | .error err =>
      ((j, some err),
       [Event.lock, Event.lookup filename, Event.openFile filename, Event.unlock])
    | .ok (os1, f) =>
      match f.Write os1 (terminated content) with
      | (os2, _, err) =>
        (({ j with os := os2 }, err),
         [Event.lock, Event.lookup filename, Event.openFile filename, Event.write filename,
          Event.closeFile filename, Event.unlock])

/-- Whether an event is file I/O. -/
def Event.isFileIO : Event → Bool
  | Event.openFile _ => true
  | Event.write _ => true
  | Event.closeFile _ => true
  | _ => false

/-- Whether some file I/O of the trace happens while the lock is held; `held`
says whether the lock is held before the first event. -/
def ioWhileLocked : Bool → List Event → Bool
  | _, [] => false
  | _, Event.lock :: es => ioWhileLocked true es
  | _, Event.unlock :: es => ioWhileLocked false es
  | held, e :: es => (e.isFileIO && held) || ioWhileLocked held es

/-- Whether some file I/O of the trace happens while the lock is not held. -/
def ioWhileUnlocked : Bool → List Event → Bool
  | _, [] => false
  | _, Event.lock :: es => ioWhileUnlocked true es
  | _, Event.unlock :: es => ioWhileUnlocked false es
  | held, e :: es => (e.isFileIO && !held) || ioWhileUnlocked held es

/-- One call of the interface of the registry. -/
inductive Op where
  | Journal (filename : String) (content : Bytes)
  | Open (filename : String)
  | Replay (filename : String) (replay : Bytes → Option Error)
  | Close (filename : String)

/-- The journal name a call works on. -/
def Op.filename : Op → String
  | Op.Journal n _ => n
  | Op.Open n => n
  | Op.Replay n _ => n
  | Op.Close n => n

/-- One call: the state after it, the returned error and the lines passed to
the callback (none for a call other than Replay). -/
def step (j : State) : Op → State × Option Error × List Bytes
  | Op.Journal n c => ((Gitbe.Journal j n c).1, (Gitbe.Journal j n c).2, [])
  | Op.Open n => ((Gitbe.Open j n).1, (Gitbe.Open j n).2, [])
  | Op.Replay n v => Gitbe.Replay j n v
  | Op.Close n => ((Gitbe.Close j n).1, (Gitbe.Close j n).2, [])

/-- Calls executed one after the other, in the order of the list (one sequential
interleaving of the calls of the different names): the final state and, for
every call, its name and its result. -/
def run (j : State) : List Op → State × List (String × Option Error × List Bytes)
  | [] => (j, [])
  | op :: ops =>
    ((run (step j op).1 ops).1, (op.filename, (step j op).2) :: (run (step j op).1 ops).2)

/-- Two states agree on a name: the same bytes in its file, the same handle, and
the same failing system calls on it. -/
def agreeOn (n : String) (j k : State) : Prop :=
  j.os.files n = k.os.files n ∧ j.journals n = k.journals n ∧
  (∀ c, j.os.fault c n = k.os.fault c n) ∧ j.os.shortWrite n = k.os.shortWrite n

/-- An interleaving of the calls of the names "j" and "k": each name gets two
appends, is opened, replayed three times and closed. -/
def sampleInterleaving : List Op :=
  [Op.Journal "j" [97], Op.Journal "k" [120], Op.Journal "j" [98], Op.Open "j",
   Op.Journal "k" [121], Op.Replay "j" (fun _ => none), Op.Open "k",
   Op.Replay "k" (fun _ => none), Op.Replay "j" (fun _ => none),
   Op.Replay "k" (fun _ => none), Op.Replay "j" (fun _ => none), Op.Close "j",
   Op.Replay "k" (fun _ => none), Op.Close "k"]

/-! ## Lemmas on the files of the operating system -/

@[simp] theorem setFile_resolve (os : OS) (name : String) (b : Bytes) :
    (os.setFile name b).resolve = os.resolve := rfl

@[simp] theorem setFile_fault (os : OS) (name : String) (b : Bytes) :
    (os.setFile name b).fault = os.fault := rfl

@[simp] theorem setFile_shortWrite (os : OS) (name : String) (b : Bytes) :
    (os.setFile name b).shortWrite = os.shortWrite := rfl

/-- After the bytes of the file of `name` are replaced, a path sees the new
bytes exactly when it names the same file. -/
theorem setFile_files (os : OS) (name : String) (b : Bytes) (n : String) :
    (os.setFile name b).files n
      = if os.resolve n = os.resolve name then some b else os.files n := rfl

@[simp] theorem setFile_files_same (os : OS) (name : String) (b : Bytes) :
    (os.setFile name b).files name = some b := by
  simp [setFile_files]

theorem setFile_files_other (os : OS) (name : String) (b : Bytes) (n : String)
    (h : os.resolve n ≠ os.resolve name) :
    (os.setFile name b).files n = os.files n := by
  simp [setFile_files, h]

/-! ## Lemmas on the byte search and on one turn of the loop of Scan -/

theorem IndexByte_eq_none {l : Bytes} {c : Byte} : IndexByte l c = none ↔ c ∉ l := by
  induction l with
  | nil => simp [IndexByte]
  | cons b t ih =>
    by_cases h : b = c
    · simp [IndexByte, h]
    · have h2 : ¬ c = b := fun e => h e.symm
      simp [IndexByte, h, h2, ih]

theorem IndexByte_append_left {l : Bytes} {c : Byte} {i : Nat} (r : Bytes)
    (h : IndexByte l c = some i) : IndexByte (l ++ r) c = some i := by
  induction l generalizing i with
  | nil => simp [IndexByte] at h
  | cons b t ih =>
    by_cases hb : b = c
    · simp [IndexByte, hb] at h ⊢; exact h
    · simp only [IndexByte, hb, if_false, List.cons_append, Option.map_eq_some'] at h ⊢
      obtain ⟨a, ha, rfl⟩ := h
      exact ⟨a, ih ha, rfl⟩

theorem IndexByte_line {line : Bytes} {c : Byte} (rest : Bytes) (h : c ∉ line) :
    IndexByte (line ++ c :: rest) c = some line.length := by
  induction line with
  | nil => simp [IndexByte]
  | cons b t ih =>
    have hb : ¬ b = c := fun e => h (by simp [e])
    have ht : c ∉ t := fun e => h (by simp [e])
    simp [IndexByte, hb, ih ht]

theorem IndexByte_lt {l : Bytes} {c : Byte} {i : Nat} (h : IndexByte l c = some i) :
    i < l.length := by
  induction l generalizing i with
  | nil => simp [IndexByte] at h
  | cons b t ih =>
    by_cases hb : b = c
    · simp [IndexByte, hb] at h; subst h; simp
    · simp only [IndexByte, hb, if_false, Option.map_eq_some'] at h
      obtain ⟨a, ha, rfl⟩ := h
      have := ih ha
      simp; omega

theorem tokenStep_index_some {s : Scanner} {i : Nat} (herr : s.err = none)
    (h : IndexByte s.buf NL = some i) :
    s.tokenStep = (some true, { s with buf := s.buf.drop (i + 1), start := s.start + (i + 1),
                                        token := dropCR (s.buf.take i) }) := by
  have hlt := IndexByte_lt h
  have hpos : s.buf.length > 0 := by omega
  have h1 : ¬ (i + 1 > s.buf.length) := by omega
  simp [Scanner.tokenStep, ScanLines, herr, h, hpos, Scanner.advance, h1]

theorem tokenStep_index_none {s : Scanner} (herr : s.err = none)
    (h : IndexByte s.buf NL = none) :
    ∃ t, s.tokenStep = (none, { s with token := t }) := by
  by_cases hpos : s.buf.length > 0
  · refine ⟨[], ?_⟩
    simp [Scanner.tokenStep, ScanLines, herr, h, hpos, Scanner.advance]
  · refine ⟨s.token, ?_⟩
    cases s
    simp_all [Scanner.tokenStep]

theorem tokenStep_atEOF_empty {s : Scanner} (herr : s.err ≠ none) (h : s.buf = []) :
    s.tokenStep = (none, { s with token := [] }) := by
  cases s with
  | mk buf start cap mx token err =>
    simp at h herr
    subst h
    simp [Scanner.tokenStep, ScanLines, herr, Scanner.advance]

theorem tokenStep_atEOF_final {s : Scanner} (herr : s.err ≠ none) (hne : s.buf ≠ [])
    (h : IndexByte s.buf NL = none) :
    s.tokenStep = (some true, { s with buf := [], start := s.start + s.buf.length,
                                        token := dropCR s.buf }) := by
  have hpos : s.buf.length > 0 := List.length_pos.mpr hne
  have hpos2 : ¬ s.buf.length = 0 := by omega
  simp [Scanner.tokenStep, ScanLines, herr, h, hpos, hpos2, Scanner.advance, hne]

/-- tokenStep never changes the recorded error when it asks for more data. -/
theorem tokenStep_none_err {s s1 : Scanner} (h : s.tokenStep = (none, s1)) : s1.err = s.err := by
  unfold Scanner.tokenStep at h
  split at h
  · split at h
    · simp at h
    · split at h
      · simp at h
      · rename_i s2 hadv
        unfold Scanner.advance at hadv
        split at hadv
        · simp at hadv
        · simp only [Prod.mk.injEq, true_and] at hadv
          split at h
          · simp at h
          · simp only [Prod.mk.injEq, true_and] at h
            rw [← h, ← hadv]
  · simp only [Prod.mk.injEq, true_and] at h; rw [← h]

theorem Read_cases (os : OS) (f : File) (len : Nat) (hread : os.fault Syscall.read f.name = none)
    (hlen : 0 < len) :
    (f.rest os = [] ∧ f.Read os len = ([], some Error.EOF, f)) ∨
    (∃ data f1, f.Read os len = (data, none, f1) ∧ 0 < data.length ∧ data.length ≤ len ∧
        f1.name = f.name ∧ data ++ f1.rest os = f.rest os) := by
  by_cases h : f.rest os = []
  · left
    refine ⟨h, ?_⟩
    unfold File.rest at h
    simp [File.Read, hread, h, hlen]
  · right
    have hpos : 0 < (f.rest os).length := List.length_pos.mpr h
    refine ⟨(f.rest os).take len,
      { f with offset := f.offset + ((f.rest os).take len).length }, ?_, ?_, ?_, rfl, ?_⟩
    · unfold File.rest at h hpos ⊢
      have hne : ¬ ((List.take len (List.drop f.offset ((os.files f.name).getD []))).length = 0
          ∧ len > 0) := by
        simp only [List.length_take, not_and_or]
        left; omega
      simp only [File.Read, hread, hne, if_false]
    · simp only [List.length_take]; omega
    · simp only [List.length_take]; omega
    · have e : File.rest os { f with offset := f.offset + ((f.rest os).take len).length }
          = (f.rest os).drop ((f.rest os).take len).length := by
        simp only [File.rest, List.drop_drop]
      rw [e, List.length_take]
      by_cases hl : len ≤ (f.rest os).length
      · rw [Nat.min_eq_left hl]; exact List.take_append_drop _ _
      · have hl2 : (f.rest os).length ≤ len := by omega
        rw [Nat.min_eq_right hl2, List.take_of_length_le hl2]
        simp

theorem shift_props (s : Scanner) (hwf : s.WF) :
    s.shift.buf = s.buf ∧ s.shift.cap = s.cap ∧ s.shift.maxTokenSize = s.maxTokenSize ∧
    s.shift.err = s.err ∧ s.shift.token = s.token ∧ s.shift.WF ∧
    (s.shift.start + s.shift.buf.length = s.shift.cap → s.shift.start = 0) := by
  obtain ⟨h1, h2, h3⟩ := hwf
  unfold Scanner.shift
  split
  · rename_i h
    refine ⟨rfl, rfl, rfl, rfl, rfl, ⟨?_, h2, h3⟩, ?_⟩
    · simp only; omega
    · intro _; rfl
  · rename_i h
    refine ⟨rfl, rfl, rfl, rfl, rfl, ⟨h1, h2, h3⟩, ?_⟩
    intro hfull
    by_contra hs
    exact h ⟨by omega, Or.inl hfull⟩

theorem grow_none (s : Scanner) (hwf : s.WF) (h0 : s.start + s.buf.length = s.cap → s.start = 0)
    (h : s.grow = none) : s.maxTokenSize ≤ s.buf.length := by
  obtain ⟨h1, h2, h3⟩ := hwf
  unfold Scanner.grow at h
  split at h
  · rename_i hfull
    have hs := h0 hfull
    split at h
    · rename_i hc
      rcases hc with hc | hc
      · omega
      · exfalso
        rw [h3] at h2
        have : MaxScanTokenSize ≤ maxInt / 2 := by decide
        omega
    · simp at h
  · simp at h

theorem grow_some (s s2 : Scanner) (hwf : s.WF)
    (h0 : s.start + s.buf.length = s.cap → s.start = 0) (h : s.grow = some s2) :
    s2.buf = s.buf ∧ s2.maxTokenSize = s.maxTokenSize ∧ s2.err = s.err ∧ s2.token = s.token ∧
    s2.start + s2.buf.length < s2.cap ∧ s2.cap ≤ s2.maxTokenSize := by
  obtain ⟨h1, h2, h3⟩ := hwf
  unfold Scanner.grow at h
  split at h
  · rename_i hfull
    have hs := h0 hfull
    split at h
    · simp at h
    · rename_i hc
      simp only [Option.some.injEq] at h
      subst h
      refine ⟨rfl, rfl, rfl, rfl, ?_, ?_⟩
      · simp only
        have hst : (0:Nat) < startBufSize := by decide
        split <;> omega
      · simp only; omega
  · rename_i hfull
    simp only [Option.some.injEq] at h
    subst h
    exact ⟨rfl, rfl, rfl, rfl, by omega, h2⟩

theorem setErr_of_none {s : Scanner} (h : s.err = none) (e : Error) :
    s.setErr e = { s with err := some e } := by
  simp [Scanner.setErr, h]

theorem fill_cases (os : OS) (f : File) (s : Scanner)
    (hread : os.fault Syscall.read f.name = none) (herr : s.err = none)
    (hlen : s.start + s.buf.length < s.cap) :
    (f.rest os = [] ∧ s.fill os f = (f, { s with err := some Error.EOF })) ∨
    (∃ data f1, s.fill os f = (f1, { s with buf := s.buf ++ data }) ∧ 0 < data.length ∧
        data.length ≤ s.cap - (s.start + s.buf.length) ∧ f1.name = f.name ∧
        data ++ f1.rest os = f.rest os) := by
  have hl : 0 < s.cap - (s.start + s.buf.length) := by omega
  rcases Read_cases os f _ hread hl with ⟨hrest, hr⟩ | ⟨data, f1, hr, hd1, hd2, hn, hrest⟩
  · left
    refine ⟨hrest, ?_⟩
    unfold Scanner.fill
    rw [hr]
    simp only [List.append_nil]
    rw [setErr_of_none herr]
  · right
    refine ⟨data, f1, ?_, hd1, hd2, hn, hrest⟩
    unfold Scanner.fill
    rw [hr]
    simp only [hd1, if_true]

theorem readStep_cases (os : OS) (f : File) (s : Scanner) (hwf : s.WF) (herr : s.err = none)
    (hread : os.fault Syscall.read f.name = none) :
    (∃ s1, s.readStep os f = (some false, f, s1) ∧ s1.err = some Error.ErrTooLong ∧
        s.maxTokenSize ≤ s.buf.length ∧ s1.buf = s.buf) ∨
    (∃ f2 s2, s.readStep os f = (none, f2, s2) ∧ s2.err = none ∧ s2.WF ∧
        s2.buf ++ f2.rest os = s.buf ++ f.rest os ∧ f2.name = f.name) ∨
    (∃ s2, s.readStep os f = (none, f, s2) ∧ s2.err = some Error.EOF ∧ s2.buf = s.buf ∧
        f.rest os = [] ∧ s.buf.length < s.maxTokenSize ∧ s2.WF) := by
  obtain ⟨hb, hc, hm, he, ht, hswf, h0⟩ := shift_props s hwf
  have hne : ¬ (s.err ≠ none) := by simp [herr]
  unfold Scanner.readStep
  rw [if_neg hne]
  cases hg : s.shift.grow with
  | none =>
    left
    refine ⟨_, rfl, ?_, ?_, ?_⟩
    · rw [setErr_of_none (by rw [he, herr])]
    · have := grow_none s.shift hswf h0 hg
      rw [hb, hm] at this; exact this
    · rw [setErr_of_none (by rw [he, herr])]
      exact hb
  | some s2 =>
    right
    obtain ⟨g1, g2, g3, g4, g5, g6⟩ := grow_some s.shift s2 hswf h0 hg
    have hs2 : s2.err = none := by rw [g3, he, herr]
    have hmx : s2.maxTokenSize = MaxScanTokenSize := by rw [g2, hm, hwf.2.2]
    rcases fill_cases os f s2 hread hs2 g5 with ⟨hrest, hr⟩ | ⟨data, f1, hr, hd1, hd2, hn, hrest⟩
    · right
      simp only [hr]
      refine ⟨_, rfl, rfl, ?_, hrest, ?_, ?_⟩
      · simp only [g1, hb]
      · rw [← hb, ← g1, ← hm, ← g2]; omega
      · exact ⟨by simp only; omega, g6, hmx⟩
    · left
      simp only [hr]
      refine ⟨_, _, rfl, hs2, ⟨?_, g6, hmx⟩, ?_, hn⟩
      · simp only [List.length_append]; omega
      · simp only [List.append_assoc, hrest, g1, hb]

theorem shift_err (s : Scanner) : s.shift.err = s.err := by
  unfold Scanner.shift; split <;> rfl

theorem grow_err (s g : Scanner) (h : s.grow = some g) : g.err = s.err := by
  unfold Scanner.grow at h
  split at h
  · split at h
    · simp at h
    · simp only [Option.some.injEq] at h; rw [← h]
  · simp only [Option.some.injEq] at h; rw [← h]

theorem Read_measure (os : OS) (f f1 : File) (len : Nat) (data : Bytes)
    (h : f.Read os len = (data, none, f1)) (hd : 0 < data.length) :
    (f1.rest os).length < (f.rest os).length := by
  unfold File.Read at h
  split at h
  · simp at h
  · simp only at h
    split at h
    · simp at h
    · simp only [Prod.mk.injEq, true_and] at h
      obtain ⟨h1, h2⟩ := h
      subst h2
      rw [← h1] at hd
      simp only [File.rest, List.length_drop, List.length_take] at hd ⊢
      omega

/-- A turn of the loop that goes round again has recorded an error or has taken
bytes from the file. -/
theorem readStep_none_measure (os : OS) (f f2 : File) (s s2 : Scanner) (herr : s.err = none)
    (h : s.readStep os f = (none, f2, s2)) :
    s2.err ≠ none ∨ (f2.rest os).length < (f.rest os).length := by
  have hne : ¬ (s.err ≠ none) := by simp [herr]
  unfold Scanner.readStep at h
  rw [if_neg hne] at h
  cases hg : s.shift.grow with
  | none => rw [hg] at h; simp at h
  | some g =>
    rw [hg] at h
    simp only [Prod.mk.injEq, true_and] at h
    obtain ⟨hf, hs⟩ := h
    have hgerr : g.err = none := by rw [grow_err _ _ hg, shift_err, herr]
    unfold Scanner.fill at hf hs
    split at hs
    · left
      rw [← hs, setErr_of_none (by simp [hgerr])]
      simp
    · rename_i data f1 heq
      split at hs
      · rename_i hd
        right
        rw [heq] at hf
        simp only [hd, if_true] at hf
        rw [← hf]
        exact Read_measure os f f1 _ data heq hd
      · left
        rw [← hs, setErr_of_none hgerr]
        simp

theorem scanLoop_isSome (os : OS) : ∀ (fuel : Nat) (f : File) (s : Scanner),
    (if s.err = none then (f.rest os).length + 2 else 1) ≤ fuel →
    (Scanner.scanLoop os fuel f s).isSome = true := by
  intro fuel
  induction fuel with
  | zero =>
    intro f s h
    split at h <;> omega
  | succ n ih =>
    intro f s h
    unfold Scanner.scanLoop
    cases hts : s.tokenStep with
    | mk b s1 =>
      cases b with
      | some b => rfl
      | none =>
        have he1 := tokenStep_none_err hts
        simp only
        cases hrs : s1.readStep os f with
        | mk b2 p =>
          obtain ⟨f2, s2⟩ := p
          cases b2 with
          | some b2 => rfl
          | none =>
            simp only
            apply ih
            by_cases hs : s.err = none
            · rw [if_pos hs] at h
              rcases readStep_none_measure os f f2 s1 s2 (he1.trans hs) hrs with h2 | h2
              · rw [if_neg h2]; omega
              · split <;> omega
            · exfalso
              unfold Scanner.readStep at hrs
              rw [if_pos (by rw [he1]; exact hs)] at hrs
              simp at hrs

theorem Scan_eq_of_scanLoop (os : OS) (f : File) (s : Scanner) :
    ∃ r, Scanner.scanLoop os (scanFuel os f) f s = some r ∧ s.Scan os f = r := by
  have h := scanLoop_isSome os (scanFuel os f) f s (by
    unfold scanFuel File.rest
    simp only [List.length_drop]
    split <;> omega)
  obtain ⟨r, hr⟩ := Option.isSome_iff_exists.mp h
  exact ⟨r, hr, by unfold Scanner.Scan; rw [hr]⟩

theorem head_length_le {a x line rest : Bytes} (h : a ++ x = line ++ NL :: rest)
    (ha : NL ∉ a) : a.length ≤ line.length := by
  rcases List.append_eq_append_iff.mp h with ⟨a', h1, _⟩ | ⟨c', h1, h2⟩
  · rw [h1]; simp
  · cases c' with
    | nil => simp at h1; rw [h1]
    | cons c cs =>
      simp only [List.cons_append, List.cons.injEq] at h2
      exfalso; apply ha; rw [h1, ← h2.1]; simp

theorem scanLoop_line (os : OS) (line rest : Bytes) (hnl : NL ∉ line)
    (hlen : line.length < MaxScanTokenSize) :
    ∀ (fuel : Nat) (f : File) (s : Scanner) (r : Bool × File × Scanner),
    s.WF → s.err = none → os.fault Syscall.read f.name = none →
    s.buf ++ f.rest os = line ++ NL :: rest →
    Scanner.scanLoop os fuel f s = some r →
    ∃ f1 s1, r = (true, f1, s1) ∧ s1.token = dropCR line ∧ s1.err = none ∧ s1.WF ∧
      s1.buf ++ f1.rest os = rest ∧ f1.name = f.name := by
  intro fuel
  induction fuel with
  | zero => intro f s r _ _ _ _ h; simp [Scanner.scanLoop] at h
  | succ n ih =>
    intro f s r hwf herr hread hpend h
    unfold Scanner.scanLoop at h
    cases hidx : IndexByte s.buf NL with
    | some i =>
      have hi : i = line.length := by
        have h1 := IndexByte_append_left (f.rest os) hidx
        rw [hpend, IndexByte_line rest hnl] at h1
        exact (Option.some.inj h1).symm
      have hlt := IndexByte_lt hidx
      rw [tokenStep_index_some herr hidx] at h
      simp only [Option.some.injEq] at h
      refine ⟨f, _, h.symm, ?_, herr, ?_, ?_, rfl⟩
      · simp only
        congr 1
        have := congrArg (List.take i) hpend
        rw [List.take_append_of_le_length (by omega), hi, List.take_left'] at this
        · rw [hi]; exact this
        · rfl
      · obtain ⟨h1, h2, h3⟩ := hwf
        refine ⟨?_, h2, h3⟩
        simp only [List.length_drop]; omega
      · simp only
        have := congrArg (List.drop (i + 1)) hpend
        rw [List.drop_append_of_le_length (by omega)] at this
        rw [this, hi]
        have e : line ++ NL :: rest = (line ++ [NL]) ++ rest := by simp
        rw [e, List.drop_left']
        simp
    | none =>
      obtain ⟨t, ht⟩ := tokenStep_index_none herr hidx
      rw [ht] at h
      simp only at h
      have hwf1 : ({ s with token := t } : Scanner).WF := hwf
      have hnb : NL ∉ s.buf := IndexByte_eq_none.mp hidx
      rcases readStep_cases os f { s with token := t } hwf1 herr hread with
        ⟨s1, hr, _, hbig, _⟩ | ⟨f2, s2, hr, he2, hwf2, hp2, hn2⟩ | ⟨s2, hr, _, hb2, hrest, _, _⟩
      · exfalso
        have := head_length_le hpend hnb
        simp only at hbig
        rw [hwf.2.2] at hbig
        omega
      · rw [hr] at h
        simp only at h
        obtain ⟨f1, s1, h1, h2, h3, h4, h5, h6⟩ :=
          ih f2 s2 r hwf2 he2 (by rw [hn2]; exact hread) (by rw [hp2]; exact hpend) h
        exact ⟨f1, s1, h1, h2, h3, h4, h5, h6.trans hn2⟩
      · exfalso
        rw [hrest, List.append_nil] at hpend
        apply hnb
        rw [hpend]; simp

/-- One turn of the loop in a scanner that has recorded an error and holds no
bytes: Scan returns false and only the start index and the token are reset. -/
theorem scanLoop_stuck (os : OS) (fuel : Nat) (f : File) (s : Scanner) (herr : s.err ≠ none)
    (hbuf : s.buf = []) :
    Scanner.scanLoop os (fuel + 1) f s = some (false, f, { s with start := 0, token := [] }) := by
  unfold Scanner.scanLoop
  rw [tokenStep_atEOF_empty herr hbuf]
  simp only [Scanner.readStep]
  rw [if_pos herr]
  simp [hbuf]

theorem scanLoop_tail (os : OS) (pending : Bytes) (hnl : NL ∉ pending)
    (hlen : pending.length < MaxScanTokenSize) :
    ∀ (fuel : Nat) (f : File) (s : Scanner) (r : Bool × File × Scanner),
    s.WF → s.err = none → os.fault Syscall.read f.name = none →
    s.buf ++ f.rest os = pending →
    Scanner.scanLoop os fuel f s = some r →
    ∃ f1 s1, f1.name = f.name ∧ s1.WF ∧ s1.err = some Error.EOF ∧ s1.buf = [] ∧
      f1.rest os = [] ∧
      ((pending = [] ∧ r = (false, f1, s1) ∧ s1.start = 0 ∧ s1.token = []) ∨
       (pending ≠ [] ∧ r = (true, f1, s1) ∧ s1.token = dropCR pending)) := by
  intro fuel
  induction fuel with
  | zero => intro f s r _ _ _ _ h; simp [Scanner.scanLoop] at h
  | succ n ih =>
    intro f s r hwf herr hread hpend h
    unfold Scanner.scanLoop at h
    have hnb : NL ∉ s.buf := by
      intro hm; apply hnl; rw [← hpend]; exact List.mem_append_left _ hm
    have hidx : IndexByte s.buf NL = none := IndexByte_eq_none.mpr hnb
    obtain ⟨t, ht⟩ := tokenStep_index_none herr hidx
    rw [ht] at h
    simp only at h
    have hwf1 : ({ s with token := t } : Scanner).WF := hwf
    rcases readStep_cases os f { s with token := t } hwf1 herr hread with
      ⟨s1, hr, _, hbig, _⟩ | ⟨f2, s2, hr, he2, hwf2, hp2, hn2⟩ | ⟨s2, hr, he2, hb2, hrest, _, hwf2⟩
    · exfalso
      simp only at hbig
      rw [hwf.2.2] at hbig
      have : s.buf.length ≤ pending.length := by rw [← hpend]; simp
      omega
    · rw [hr] at h
      simp only at h
      obtain ⟨f1, s1, h1, h2⟩ :=
        ih f2 s2 r hwf2 he2 (by rw [hn2]; exact hread) (by rw [hp2]; exact hpend) h
      exact ⟨f1, s1, h1.trans hn2, h2⟩
    · rw [hr] at h
      simp only at h hb2
      rw [hrest, List.append_nil] at hpend
      have he2n : s2.err ≠ none := by rw [he2]; simp
      cases n with
      | zero => simp [Scanner.scanLoop] at h
      | succ m =>
        by_cases hp : pending = []
        · have hb : s2.buf = [] := by rw [hb2, hpend, hp]
          rw [scanLoop_stuck os m f s2 he2n hb] at h
          simp only [Option.some.injEq] at h
          refine ⟨f, { s2 with start := 0, token := [] }, rfl, ?_, he2, hb, hrest,
            Or.inl ⟨hp, h.symm, rfl, rfl⟩⟩
          obtain ⟨w1, w2, w3⟩ := hwf2
          exact ⟨by simp only [hb, List.length_nil]; omega, w2, w3⟩
        · have hb : s2.buf ≠ [] := by rw [hb2, hpend]; exact hp
          have hidx2 : IndexByte s2.buf NL = none := by rw [hb2]; exact hidx
          unfold Scanner.scanLoop at h
          rw [tokenStep_atEOF_final he2n hb hidx2] at h
          simp only [Option.some.injEq] at h
          have hex : ∃ x : Scanner, x = { s2 with buf := [], start := s2.start + s2.buf.length, token := dropCR s2.buf } := ⟨_, rfl⟩
          obtain ⟨x, hx⟩ := hex
          rw [← hx] at h
          refine ⟨f, x, rfl, ?_, by rw [hx]; exact he2, by rw [hx], hrest,
            Or.inr ⟨hp, h.symm, ?_⟩⟩ <;> rw [hx]
          · obtain ⟨w1, w2, w3⟩ := hwf2
            exact ⟨by simp only [List.length_nil]; omega, w2, w3⟩
          · simp only [hb2, hpend]

theorem scanLoop_long (os : OS) (pending : Bytes) (hnl : NL ∉ pending.take MaxScanTokenSize)
    (hlen : MaxScanTokenSize ≤ pending.length) :
    ∀ (fuel : Nat) (f : File) (s : Scanner) (r : Bool × File × Scanner),
    s.WF → s.err = none → os.fault Syscall.read f.name = none →
    s.buf ++ f.rest os = pending →
    Scanner.scanLoop os fuel f s = some r →
    ∃ f1 s1, r = (false, f1, s1) ∧ s1.err = some Error.ErrTooLong ∧
      s1.buf = pending.take MaxScanTokenSize := by
  intro fuel
  induction fuel with
  | zero => intro f s r _ _ _ _ h; simp [Scanner.scanLoop] at h
  | succ n ih =>
    intro f s r hwf herr hread hpend h
    unfold Scanner.scanLoop at h
    have hbl : s.buf.length ≤ MaxScanTokenSize := by
      obtain ⟨w1, w2, w3⟩ := hwf; omega
    have hnb : NL ∉ s.buf := by
      intro hm; apply hnl
      rw [← hpend, List.take_append_eq_append_take]
      apply List.mem_append_left
      rw [List.take_of_length_le hbl]; exact hm
    have hidx : IndexByte s.buf NL = none := IndexByte_eq_none.mpr hnb
    obtain ⟨t, ht⟩ := tokenStep_index_none herr hidx
    rw [ht] at h
    simp only at h
    have hwf1 : ({ s with token := t } : Scanner).WF := hwf
    rcases readStep_cases os f { s with token := t } hwf1 herr hread with
      ⟨s1, hr, he1, hbig, hsame⟩ | ⟨f2, s2, hr, he2, hwf2, hp2, hn2⟩ |
      ⟨s2, hr, he2, hb2, hrest, hsmall, hwf2⟩
    · rw [hr] at h
      simp only [Option.some.injEq] at h
      refine ⟨f, s1, h.symm, he1, ?_⟩
      simp only at hbig hsame
      rw [hwf.2.2] at hbig
      have hlen2 : s.buf.length = MaxScanTokenSize := by omega
      rw [hsame, ← hpend, ← hlen2, List.take_left' rfl]
    · rw [hr] at h
      simp only at h
      exact ih f2 s2 r hwf2 he2 (by rw [hn2]; exact hread) (by rw [hp2]; exact hpend) h
    · exfalso
      simp only at hsmall
      rw [hrest, List.append_nil] at hpend
      rw [hwf.2.2, hpend] at hsmall
      omega

theorem setErr_Err (s : Scanner) (e : Error) (he : e ≠ Error.EOF) : (s.setErr e).Err ≠ none := by
  unfold Scanner.setErr Scanner.Err
  by_cases h : s.err = none ∨ s.err = some Error.EOF
  · rw [if_pos h]
    simp [he]
  · rw [if_neg h]
    rw [not_or] at h
    rw [if_neg h.2]
    exact h.1

theorem tokenStep_false_Err {s s1 : Scanner} (h : s.tokenStep = (some false, s1)) :
    s1.Err ≠ none := by
  unfold Scanner.tokenStep at h
  split at h
  · split at h
    · rename_i a b err heq
      exfalso
      unfold ScanLines at heq
      split at heq
      · simp at heq
      · split at heq
        · simp at heq
        · split at heq <;> simp at heq
    · split at h
      · rename_i s2 hadv
        simp only [Prod.mk.injEq, true_and] at h
        subst h
        unfold Scanner.advance at hadv
        split at hadv
        · simp only [Prod.mk.injEq, true_and] at hadv
          rw [← hadv]
          exact setErr_Err _ _ (by simp)
        · simp at hadv
      · split at h <;> simp at h
  · simp at h

theorem readStep_false_Err {os : OS} {f f1 : File} {s0 s s1 : Scanner}
    (hts : s0.tokenStep = (none, s)) (h : s.readStep os f = (some false, f1, s1))
    (hE : s1.Err = none) :
    s1.err = some Error.EOF ∧ s1.buf = [] ∧ s1.start = 0 ∧ s1.token = [] := by
  unfold Scanner.readStep at h
  split at h
  · rename_i herr
    simp only [Prod.mk.injEq, true_and] at h
    obtain ⟨_, hs⟩ := h
    subst hs
    have he : s.err = some Error.EOF := by
      unfold Scanner.Err at hE
      simp only at hE
      by_contra hc
      rw [if_neg hc] at hE
      exact herr hE
    refine ⟨he, rfl, rfl, ?_⟩
    simp only
    -- the token was reset by the first half of the turn
    unfold Scanner.tokenStep at hts
    split at hts
    · split at hts
      · simp at hts
      · split at hts
        · simp at hts
        · split at hts
          · simp at hts
          · simp only [Prod.mk.injEq, true_and] at hts
            rw [← hts]
    · rename_i hc
      simp only [Prod.mk.injEq, true_and] at hts
      subst hts
      exfalso
      exact hc (Or.inr herr)
  · split at h
    · simp only [Prod.mk.injEq, true_and] at h
      obtain ⟨_, hs⟩ := h
      subst hs
      exfalso
      exact setErr_Err _ _ (by simp) hE
    · simp at h

/-- When Scan returns false without a recorded error other than EOF, the
scanner is left at the end of the input: error EOF, no buffered byte, start
index 0 and no token. -/
theorem scanLoop_false_eof (os : OS) : ∀ (fuel : Nat) (f f1 : File) (s s1 : Scanner),
    Scanner.scanLoop os fuel f s = some (false, f1, s1) → s1.Err = none →
    s1.err = some Error.EOF ∧ s1.buf = [] ∧ s1.start = 0 ∧ s1.token = [] := by
  intro fuel
  induction fuel with
  | zero => intro f f1 s s1 h; simp [Scanner.scanLoop] at h
  | succ n ih =>
    intro f f1 s s1 h hE
    unfold Scanner.scanLoop at h
    cases hts : s.tokenStep with
    | mk b s2 =>
      rw [hts] at h
      cases b with
      | some b =>
        simp only [Option.some.injEq, Prod.mk.injEq] at h
        obtain ⟨hb, _, hs⟩ := h
        subst hb hs
        exfalso
        exact tokenStep_false_Err hts hE
      | none =>
        simp only at h
        cases hrs : s2.readStep os f with
        | mk b2 p =>
          obtain ⟨f3, s3⟩ := p
          rw [hrs] at h
          cases b2 with
          | none => exact ih f3 f1 s3 s1 h hE
          | some b2 =>
            simp only [Option.some.injEq, Prod.mk.injEq] at h
            obtain ⟨hb, _, hs⟩ := h
            subst hb hs
            exact readStep_false_Err hts hrs hE

/-! ## Scan as a function of the bytes not yet delivered -/

theorem Scan_line (os : OS) (f : File) (s : Scanner) (line rest : Bytes) (hwf : s.WF)
    (herr : s.err = none) (hread : os.fault Syscall.read f.name = none)
    (hnl : NL ∉ line) (hlen : line.length < MaxScanTokenSize)
    (hpend : s.buf ++ f.rest os = line ++ NL :: rest) :
    ∃ f1 s1, s.Scan os f = (true, f1, s1) ∧ s1.token = dropCR line ∧ s1.err = none ∧ s1.WF ∧
      s1.buf ++ f1.rest os = rest ∧ f1.name = f.name := by
  obtain ⟨r, hr, hs⟩ := Scan_eq_of_scanLoop os f s
  rw [hs]
  exact scanLoop_line os line rest hnl hlen _ f s r hwf herr hread hpend hr

theorem Scan_tail (os : OS) (f : File) (s : Scanner) (pending : Bytes) (hwf : s.WF)
    (herr : s.err = none) (hread : os.fault Syscall.read f.name = none)
    (hnl : NL ∉ pending) (hlen : pending.length < MaxScanTokenSize)
    (hpend : s.buf ++ f.rest os = pending) :
    ∃ f1 s1, f1.name = f.name ∧ s1.WF ∧ s1.err = some Error.EOF ∧ s1.buf = [] ∧
      f1.rest os = [] ∧
      ((pending = [] ∧ s.Scan os f = (false, f1, s1) ∧ s1.start = 0 ∧ s1.token = []) ∨
       (pending ≠ [] ∧ s.Scan os f = (true, f1, s1) ∧ s1.token = dropCR pending)) := by
  obtain ⟨r, hr, hs⟩ := Scan_eq_of_scanLoop os f s
  rw [hs]
  exact scanLoop_tail os pending hnl hlen _ f s r hwf herr hread hpend hr

theorem Scan_long (os : OS) (f : File) (s : Scanner) (pending : Bytes) (hwf : s.WF)
    (herr : s.err = none) (hread : os.fault Syscall.read f.name = none)
    (hnl : NL ∉ pending.take MaxScanTokenSize) (hlen : MaxScanTokenSize ≤ pending.length)
    (hpend : s.buf ++ f.rest os = pending) :
    ∃ f1 s1, s.Scan os f = (false, f1, s1) ∧ s1.err = some Error.ErrTooLong ∧
      s1.buf = pending.take MaxScanTokenSize := by
  obtain ⟨r, hr, hs⟩ := Scan_eq_of_scanLoop os f s
  rw [hs]
  exact scanLoop_long os pending hnl hlen _ f s r hwf herr hread hpend hr

theorem Scan_stuck (os : OS) (f : File) (s : Scanner) (herr : s.err ≠ none) (hbuf : s.buf = []) :
    s.Scan os f = (false, f, { s with start := 0, token := [] }) := by
  unfold Scanner.Scan
  have : scanFuel os f = (((os.files f.name).getD []).length - f.offset + 1) + 1 := rfl
  rw [this, scanLoop_stuck os _ f s herr hbuf]

theorem Scan_false_eof (os : OS) (f f1 : File) (s s1 : Scanner)
    (h : s.Scan os f = (false, f1, s1)) (hE : s1.Err = none) :
    s1.err = some Error.EOF ∧ s1.buf = [] ∧ s1.start = 0 ∧ s1.token = [] := by
  obtain ⟨r, hr, hs⟩ := Scan_eq_of_scanLoop os f s
  rw [hs] at h
  rw [h] at hr
  exact scanLoop_false_eof os _ f f1 s s1 hr hE

/-! ## Append -/

theorem Journal_busy (j : State) (filename : String) (content : Bytes)
    (h : (j.journals filename).isSome = true) :
    Journal j filename content = (j, some Error.ErrBusy) := by
  simp [Journal, h]

/-- What an append does when the name is not open for replay: the open fails, or
the write fails, or the terminated content is appended. -/
theorem Journal_not_busy (j : State) (filename : String) (content : Bytes)
    (h : (j.journals filename).isSome = false) :
    (∃ errno, Journal j filename content = (j, some (Error.PathError "open" filename errno))) ∨
    (∃ j1 errno, Journal j filename content = (j1, some (Error.PathError "write" filename errno))
      ∧ j1.journals = j.journals) ∨
    (∃ j1, Journal j filename content = (j1, none) ∧ j1.journals = j.journals ∧
      j1.os.files filename = some ((j.os.files filename).getD [] ++ terminated content) ∧
      (∀ n, j.os.resolve n ≠ j.os.resolve filename → j1.os.files n = j.os.files n) ∧
      j1.os.fault = j.os.fault ∧ j1.os.shortWrite = j.os.shortWrite ∧
      j1.os.resolve = j.os.resolve ∧
      (∀ k, k ≠ j.os.resolve filename → j1.os.store k = j.os.store k)) := by
  unfold Journal
  simp only [h, Bool.false_eq_true, if_false]
  unfold OpenFile
  cases hf : j.os.fault Syscall.openAppend filename with
  | some errno => left; exact ⟨errno, rfl⟩
  | none =>
    right
    simp only
    cases hfile : j.os.files filename with
    | some old =>
      simp only [File.Write]
      cases hw : j.os.fault Syscall.write filename with
      | some errno => left; exact ⟨_, errno, rfl, rfl⟩
      | none =>
        right
        refine ⟨_, rfl, rfl, ?_, ?_, rfl, rfl, rfl, ?_⟩
        · simp [hfile]
        · intro n hn; simp [setFile_files, hn]
        · intro k hk; simp [OS.setFile, hk]
    | none =>
      simp only [File.Write, setFile_fault]
      cases hw : j.os.fault Syscall.write filename with
      | some errno => left; exact ⟨_, errno, rfl, rfl⟩
      | none =>
        right
        refine ⟨_, rfl, rfl, ?_, ?_, rfl, rfl, rfl, ?_⟩
        · simp [hfile]
        · intro n hn; simp [setFile_files, hn]
        · intro k hk; simp [OS.setFile, hk]

theorem HasSuffix_NL_iff (content : Bytes) :
    HasSuffix content [NL] = true ↔ ∃ init, content = init ++ [NL] := by
  unfold HasSuffix
  constructor
  · intro h
    simp only [List.length_singleton, ge_iff_le, Bool.and_eq_true, decide_eq_true_eq,
      beq_iff_eq] at h
    refine ⟨content.take (content.length - 1), ?_⟩
    rw [← h.2]
    exact (List.take_append_drop _ _).symm
  · rintro ⟨init, rfl⟩
    simp

theorem terminated_suffix (content : Bytes) : HasSuffix (terminated content) [NL] = true := by
  unfold terminated
  by_cases h : HasSuffix content [NL] = true
  · simp [h]
  · simp only [h, Bool.not_eq_true] at h ⊢
    simp only [h, Bool.not_false, if_true]
    exact (HasSuffix_NL_iff _).mpr ⟨content, rfl⟩

/-- C2: an append returns ErrBusy exactly when a replay handle is registered for
the name, and then it leaves the whole state (the bytes of every file, the
registry and every replay cursor) unchanged. -/
theorem journal_busy_iff_registered (j : State) (filename : String) (content : Bytes) :
    ((Journal j filename content).2 = some Error.ErrBusy ↔
        (j.journals filename).isSome = true) ∧
    ((Journal j filename content).2 = some Error.ErrBusy →
        (Journal j filename content).1 = j) := by
  by_cases h : (j.journals filename).isSome = true
  · rw [Journal_busy j filename content h]
    simp [h]
  · have h2 : (j.journals filename).isSome = false := by simpa using h
    have hne : (Journal j filename content).2 ≠ some Error.ErrBusy := by
      rcases Journal_not_busy j filename content h2 with ⟨e, he⟩ | ⟨j1, e, he, _⟩ | ⟨j1, he, _⟩
        <;> rw [he] <;> simp
    exact ⟨⟨fun hb => absurd hb hne, fun hb => absurd hb h⟩, fun hb => absurd hb hne⟩

/-- C3: opening a name that is already open for replay returns ErrBusy and
changes nothing: the registry still holds the same handle with the same cursor,
so every later Replay behaves as if the second Open had not been called. -/
theorem open_twice_busy (j : State) (filename : String)
    (h : (j.journals filename).isSome = true) :
    Open j filename = (j, some Error.ErrBusy) ∧
    (Open j filename).1.journals filename = j.journals filename ∧
    ∀ name replay, Replay (Open j filename).1 name replay = Replay j name replay := by
  have e : Open j filename = (j, some Error.ErrBusy) := by simp [Open, h]
  rw [e]
  exact ⟨rfl, rfl, fun _ _ => rfl⟩

theorem open_twice_busy_witness :
    (sampleOpened.journals "j").isSome = true ∧
    (Open sampleOpened "j").2 = some Error.ErrBusy := by
  have h : (sampleOpened.journals "j").isSome = true := by decide
  exact ⟨h, by rw [(open_twice_busy sampleOpened "j" h).1]⟩

theorem Close_unregisters (j : State) (filename : String) :
    (Close j filename).1.journals filename = none := by
  unfold Close
  cases h : j.journals filename with
  | none => simpa using h
  | some f => simp

/-- C4: closing a name without a registered handle returns ErrNotFound and leaves
the state unchanged; in particular a Close that follows a successful Close of
the same name returns ErrNotFound. -/
theorem close_not_idempotent (j : State) (filename : String) :
    (j.journals filename = none → Close j filename = (j, some Error.ErrNotFound)) ∧
    (∀ j1, Close j filename = (j1, none) → Close j1 filename = (j1, some Error.ErrNotFound)) := by
  have key : ∀ k : State, k.journals filename = none →
      Close k filename = (k, some Error.ErrNotFound) := by
    intro k hk; simp [Close, hk]
  refine ⟨key j, ?_⟩
  intro j1 h
  apply key
  have := Close_unregisters j filename
  rw [h] at this
  exact this

theorem close_not_idempotent_witness :
    Close sampleOpened "j" = ((Close sampleOpened "j").1, none) ∧
    Close (Close sampleOpened "j").1 "j" = ((Close sampleOpened "j").1, some Error.ErrNotFound) := by
  have h : Close sampleOpened "j" = ((Close sampleOpened "j").1, none) := by
    apply Prod.ext
    · rfl
    · decide
  exact ⟨h, (close_not_idempotent sampleOpened "j").2 _ h⟩

theorem getLast?_eq_NL_iff (content : Bytes) :
    content.getLast? = some NL ↔ HasSuffix content [NL] = true := by
  rw [HasSuffix_NL_iff]
  constructor
  · intro h
    obtain ⟨init, hinit⟩ := List.getLast?_eq_some_iff.mp h
    exact ⟨init, hinit⟩
  · rintro ⟨init, rfl⟩
    simp

theorem terminated_of_last (content : Bytes) (h : content.getLast? = some NL) :
    terminated content = content := by
  have := (getLast?_eq_NL_iff content).mp h
  simp [terminated, this]

theorem terminated_of_not_last (content : Bytes) (h : content.getLast? ≠ some NL) :
    terminated content = content ++ [NL] := by
  have : HasSuffix content [NL] = false := by
    cases hs : HasSuffix content [NL] with
    | false => rfl
    | true => exact absurd ((getLast?_eq_NL_iff content).mpr hs) h
  simp [terminated, this]

theorem Journal_success (j j1 : State) (filename : String) (content : Bytes)
    (h : Journal j filename content = (j1, none)) :
    j.journals filename = none ∧ j1.journals = j.journals ∧
    j1.os.files filename = some ((j.os.files filename).getD [] ++ terminated content) ∧
    (∀ n, j.os.resolve n ≠ j.os.resolve filename → j1.os.files n = j.os.files n) ∧
    j1.os.fault = j.os.fault ∧ j1.os.shortWrite = j.os.shortWrite ∧
    j1.os.resolve = j.os.resolve ∧
    (∀ k, k ≠ j.os.resolve filename → j1.os.store k = j.os.store k) := by
  cases hreg : (j.journals filename).isSome with
  | true => rw [Journal_busy j filename content hreg] at h; simp at h
  | false =>
    have hnone : j.journals filename = none := by
      cases hj : j.journals filename with
      | none => rfl
      | some x => rw [hj] at hreg; simp at hreg
    rcases Journal_not_busy j filename content hreg with
      ⟨e, he⟩ | ⟨j2, e, he, _⟩ | ⟨j2, he, h1, h2, h3, h4, h5, h6, h7⟩
    · rw [he] at h; simp at h
    · rw [he] at h; simp at h
    · rw [he] at h
      simp only [Prod.mk.injEq, and_true] at h
      subst h
      exact ⟨hnone, h1, h2, h3, h4, h5, h6, h7⟩

/-- C5: the bytes a successful append adds to the file are the content itself when
the content ends with the terminator and the content followed by one terminator
otherwise; they always end with the terminator, and terminating them again
changes nothing. -/
theorem journal_writes_terminated (j j1 : State) (filename : String) (content : Bytes)
    (h : Journal j filename content = (j1, none)) :
    (∃ written, j1.os.files filename = some ((j.os.files filename).getD [] ++ written) ∧
      (content.getLast? = some NL → written = content) ∧
      (content.getLast? ≠ some NL → written = content ++ [NL]) ∧
      written.getLast? = some NL ∧
      terminated written = written) := by
  obtain ⟨_, _, hfile, _⟩ := Journal_success j j1 filename content h
  have hlast : (terminated content).getLast? = some NL :=
    (getLast?_eq_NL_iff _).mpr (terminated_suffix content)
  exact ⟨terminated content, hfile, terminated_of_last content, terminated_of_not_last content,
    hlast, terminated_of_last _ hlast⟩

theorem journal_writes_terminated_witness :
    ∃ written, (Journal (NewJournal quietOS) "j" [97]).1.os.files "j"
        = some (((NewJournal quietOS).os.files "j").getD [] ++ written) ∧
      (([97] : Bytes).getLast? = some NL → written = [97]) ∧
      (([97] : Bytes).getLast? ≠ some NL → written = [97] ++ [NL]) ∧
      written.getLast? = some NL ∧
      terminated written = written :=
  journal_writes_terminated (NewJournal quietOS) (Journal (NewJournal quietOS) "j" [97]).1 "j" [97]
    (by apply Prod.ext; rfl; decide)

/-- C6: a successful append to a name without a replay handle leaves the file of
that name equal to its previous bytes (none when it did not exist) followed by
the terminated content, so the file grows by the length of the terminated
content; every other file and the registry are unchanged. Every other file: the
stored bytes of every file but the one the name is a path of, hence the bytes
seen through every path of another file, and through every other name when
different names are paths of different files. -/
theorem journal_append_effect (j j1 : State) (filename : String) (content : Bytes)
    (h : Journal j filename content = (j1, none)) :
    j.journals filename = none ∧
    j1.os.files filename = some ((j.os.files filename).getD [] ++ terminated content) ∧
    ((j1.os.files filename).getD []).length =
      ((j.os.files filename).getD []).length + (terminated content).length ∧
    (∀ k, k ≠ j.os.resolve filename → j1.os.store k = j.os.store k) ∧
    (∀ n, j.os.resolve n ≠ j.os.resolve filename → j1.os.files n = j.os.files n) ∧
    (Function.Injective j.os.resolve → ∀ n, n ≠ filename → j1.os.files n = j.os.files n) ∧
    j1.journals = j.journals := by
  obtain ⟨hreg, hj, hfile, hother, _, _, _, hstore⟩ := Journal_success j j1 filename content h
  refine ⟨hreg, hfile, ?_, hstore, hother, ?_, hj⟩
  · rw [hfile]
    simp
  · intro hinj n hn
    exact hother n (fun e => hn (hinj e))

theorem journal_append_effect_witness :
    sampleWritten.os.files "j" = some ([97, 10] ++ terminated [98]) ∧
    ((sampleWritten.os.files "j").getD []).length = 2 + (terminated [98]).length := by
  have h := journal_append_effect (Journal (NewJournal quietOS) "j" [97]).1 sampleWritten "j" [98]
    (by apply Prod.ext; rfl; decide)
  exact ⟨h.2.1, h.2.2.1⟩

theorem dropCR_of_last (line : Bytes) (h : line.getLast? ≠ some CR) : dropCR line = line := by
  unfold dropCR
  rw [if_neg]
  intro hc
  exact h hc.2

theorem Err_of_EOF {s : Scanner} (h : s.err = some Error.EOF) : s.Err = none := by
  simp [Scanner.Err, h]

theorem Err_ne_EOF (s : Scanner) : s.Err ≠ some Error.EOF := by
  unfold Scanner.Err
  split
  · simp
  · assumption

theorem update_same {α : Type} (m : String → Option α) (k : String) (v : α) (h : m k = some v) :
    (fun n => if n = k then some v else m n) = m := by
  funext n
  by_cases hn : n = k
  · rw [if_pos hn, hn, h]
  · rw [if_neg hn]

/-- Replay on a registered handle whose scan delivers a token. -/
theorem Replay_of_Scan_true (j : State) (filename : String) (jf : journalFile) (f1 : File)
    (s1 : Scanner) (hreg : j.journals filename = some jf)
    (hs : jf.scanner.Scan j.os jf.file = (true, f1, s1)) (replay : Bytes → Option Error) :
    Replay j filename replay =
      ({ j with journals := fun n =>
          if n = filename then some { file := f1, scanner := s1 } else j.journals n },
       replay s1.token, [s1.token]) := by
  unfold Replay
  rw [hreg]
  simp only [hs]
  rfl

/-- Replay on a registered handle whose scan delivers no token. -/
theorem Replay_of_Scan_false (j : State) (filename : String) (jf : journalFile) (f1 : File)
    (s1 : Scanner) (hreg : j.journals filename = some jf)
    (hs : jf.scanner.Scan j.os jf.file = (false, f1, s1)) (replay : Bytes → Option Error) :
    Replay j filename replay =
      ({ j with journals := fun n =>
          if n = filename then some { file := f1, scanner := s1 } else j.journals n },
       (if s1.Err = none then some Error.EOF else s1.Err), []) := by
  unfold Replay
  rw [hreg]
  simp only [hs]
  by_cases h : s1.Err = none <;> simp [h]

/-- One Replay on a healthy handle whose next line ends with the terminator. -/
theorem Replay_line (j : State) (filename : String) (jf : journalFile) (line rest : Bytes)
    (hreg : j.journals filename = some jf) (hwf : jf.scanner.WF)
    (herr : jf.scanner.err = none) (hread : j.os.fault Syscall.read jf.file.name = none)
    (hnl : NL ∉ line) (hlen : line.length < MaxScanTokenSize)
    (hun : jf.unread j.os = line ++ NL :: rest) :
    ∃ j1 jf1, (∀ replay, Replay j filename replay = (j1, replay (dropCR line), [dropCR line])) ∧
      j1.os = j.os ∧ j1.journals filename = some jf1 ∧
      (∀ n, n ≠ filename → j1.journals n = j.journals n) ∧
      jf1.file.name = jf.file.name ∧ jf1.scanner.WF ∧ jf1.scanner.err = none ∧
      jf1.unread j1.os = rest := by
  obtain ⟨f1, s1, hs, htok, he1, hwf1, hun1, hname⟩ :=
    Scan_line j.os jf.file jf.scanner line rest hwf herr hread hnl hlen hun
  refine ⟨({ j with journals := fun n => if n = filename then some { file := f1, scanner := s1 } else j.journals n } : State),
    { file := f1, scanner := s1 }, ?_, rfl, ?_, ?_, hname, hwf1, he1, hun1⟩
  · intro replay
    rw [Replay_of_Scan_true j filename jf f1 s1 hreg hs replay, htok]
  · simp
  · intro n hn; simp [hn]

/-- One Replay on a healthy handle whose last line has no terminator. -/
theorem Replay_tail (j : State) (filename : String) (jf : journalFile) (line : Bytes)
    (hreg : j.journals filename = some jf) (hwf : jf.scanner.WF)
    (herr : jf.scanner.err = none) (hread : j.os.fault Syscall.read jf.file.name = none)
    (hnl : NL ∉ line) (hlen : line.length < MaxScanTokenSize) (hne : line ≠ [])
    (hun : jf.unread j.os = line) :
    ∃ j1 jf1, (∀ replay, Replay j filename replay = (j1, replay (dropCR line), [dropCR line])) ∧
      j1.os = j.os ∧ j1.journals filename = some jf1 ∧
      (∀ n, n ≠ filename → j1.journals n = j.journals n) ∧
      jf1.file.name = jf.file.name ∧ jf1.scanner.WF ∧ jf1.scanner.err = some Error.EOF ∧
      jf1.scanner.buf = [] ∧ jf1.unread j1.os = [] := by
  obtain ⟨f1, s1, hname, hwf1, he1, hb1, hr1, hcase⟩ :=
    Scan_tail j.os jf.file jf.scanner line hwf herr hread hnl hlen hun
  rcases hcase with ⟨hp, _⟩ | ⟨_, hs, htok⟩
  · exact absurd hp hne
  · refine ⟨({ j with journals := fun n => if n = filename then some { file := f1, scanner := s1 } else j.journals n } : State),
      { file := f1, scanner := s1 }, ?_, rfl, ?_, ?_, hname, hwf1, he1, hb1, ?_⟩
    · intro replay
      rw [Replay_of_Scan_true j filename jf f1 s1 hreg hs replay, htok]
    · simp
    · intro n hn; simp [hn]
    · simp only [journalFile.unread, hb1, hr1, List.append_nil]

/-- Replay on a handle that has met the end of its input returns EOF and changes
nothing. -/
theorem Replay_at_end (j : State) (filename : String) (jf : journalFile)
    (hreg : j.journals filename = some jf) (herr : jf.scanner.err = some Error.EOF)
    (hbuf : jf.scanner.buf = []) (hstart : jf.scanner.start = 0) (htok : jf.scanner.token = [])
    (replay : Bytes → Option Error) :
    Replay j filename replay = (j, some Error.EOF, []) := by
  have hs : jf.scanner.Scan j.os jf.file = (false, jf.file, jf.scanner) := by
    rw [Scan_stuck j.os jf.file jf.scanner (by rw [herr]; simp) hbuf]
    congr 2
    cases hsc : jf.scanner with
    | mk buf start cap mx token err =>
      rw [hsc] at hstart htok
      simp only at hstart htok
      subst hstart htok
      rfl
  rw [Replay_of_Scan_false j filename jf jf.file jf.scanner hreg hs replay,
    Err_of_EOF herr, if_pos rfl]
  congr 1
  have : (fun n => if n = filename then some ({ file := jf.file, scanner := jf.scanner } : journalFile)
      else j.journals n) = j.journals := update_same j.journals filename jf hreg
  cases j with
  | mk os journals =>
    simp only at this ⊢
    rw [this]

/-- Replay on a healthy handle with nothing left to deliver returns EOF. -/
theorem Replay_empty (j : State) (filename : String) (jf : journalFile)
    (hreg : j.journals filename = some jf) (hwf : jf.scanner.WF)
    (herr : jf.scanner.err = none) (hread : j.os.fault Syscall.read jf.file.name = none)
    (hun : jf.unread j.os = []) (replay : Bytes → Option Error) :
    (Replay j filename replay).2 = (some Error.EOF, []) := by
  obtain ⟨f1, s1, _, _, he1, _, _, hcase⟩ :=
    Scan_tail j.os jf.file jf.scanner [] hwf herr hread (by simp) (by decide) hun
  rcases hcase with ⟨_, hs, _⟩ | ⟨hp, _⟩
  · rw [Replay_of_Scan_false j filename jf f1 s1 hreg hs replay, Err_of_EOF he1, if_pos rfl]
  · exact absurd rfl hp

/-- Replay on a handle that has recorded EOF and holds no byte returns EOF. -/
theorem Replay_after_tail (j : State) (filename : String) (jf : journalFile)
    (hreg : j.journals filename = some jf) (herr : jf.scanner.err = some Error.EOF)
    (hbuf : jf.scanner.buf = []) (replay : Bytes → Option Error) :
    (Replay j filename replay).2 = (some Error.EOF, []) := by
  have hs := Scan_stuck j.os jf.file jf.scanner (by rw [herr]; simp) hbuf
  rw [Replay_of_Scan_false j filename jf _ _ hreg hs replay]
  have : ({ jf.scanner with start := 0, token := [] } : Scanner).Err = none :=
    Err_of_EOF herr
  rw [this, if_pos rfl]

/-- C7 (amended): on a handle without a recorded error whose next unread line is
within the limit, Replay invokes the callback exactly once, with the line
without its terminator and without one "\r" before the terminator, returns
exactly what the callback returned, and leaves a state that does not depend on
the callback, in which the next Replay delivers the following line (or EOF when
no byte is left). -/
theorem replay_delivers_one_line (j : State) (filename : String) (jf : journalFile)
    (line rest : Bytes)
    (hreg : j.journals filename = some jf) (hwf : jf.scanner.WF)
    (herr : jf.scanner.err = none) (hread : j.os.fault Syscall.read jf.file.name = none)
    (hnl : NL ∉ line) (hlen : line.length < MaxScanTokenSize)
    (hun : jf.unread j.os = line ++ NL :: rest ∨
      (jf.unread j.os = line ∧ line ≠ [] ∧ rest = [])) :
    ∃ j1 jf1,
      (∀ replay, Replay j filename replay = (j1, replay (dropCR line), [dropCR line])) ∧
      j1.os = j.os ∧ j1.journals filename = some jf1 ∧
      (∀ n, n ≠ filename → j1.journals n = j.journals n) ∧
      jf1.file.name = jf.file.name ∧ jf1.unread j1.os = rest ∧
      (∀ line2 rest2, rest = line2 ++ NL :: rest2 → NL ∉ line2 →
        line2.length < MaxScanTokenSize →
        ∀ replay2, (Replay j1 filename replay2).2 = (replay2 (dropCR line2), [dropCR line2])) ∧
      (∀ line2, rest = line2 → line2 ≠ [] → NL ∉ line2 → line2.length < MaxScanTokenSize →
        ∀ replay2, (Replay j1 filename replay2).2 = (replay2 (dropCR line2), [dropCR line2])) ∧
      (rest = [] → ∀ replay2, (Replay j1 filename replay2).2 = (some Error.EOF, [])) := by
  rcases hun with hun | ⟨hun, hne, hrest⟩
  · obtain ⟨j1, jf1, hrep, hos, hreg1, hoth, hname, hwf1, herr1, hun1⟩ :=
      Replay_line j filename jf line rest hreg hwf herr hread hnl hlen hun
    have hread1 : j1.os.fault Syscall.read jf1.file.name = none := by rw [hos, hname]; exact hread
    refine ⟨j1, jf1, hrep, hos, hreg1, hoth, hname, hun1, ?_, ?_, ?_⟩
    · intro line2 rest2 hr hnl2 hlen2 replay2
      obtain ⟨j2, jf2, hrep2, _⟩ := Replay_line j1 filename jf1 line2 rest2 hreg1 hwf1 herr1
        hread1 hnl2 hlen2 (by rw [hun1, hr])
      rw [hrep2]
    · intro line2 hr hne2 hnl2 hlen2 replay2
      obtain ⟨j2, jf2, hrep2, _⟩ := Replay_tail j1 filename jf1 line2 hreg1 hwf1 herr1
        hread1 hnl2 hlen2 hne2 (by rw [hun1, hr])
      rw [hrep2]
    · intro hr replay2
      exact Replay_empty j1 filename jf1 hreg1 hwf1 herr1 hread1 (by rw [hun1, hr]) replay2
  · obtain ⟨j1, jf1, hrep, hos, hreg1, hoth, hname, hwf1, herr1, hbuf1, hun1⟩ :=
      Replay_tail j filename jf line hreg hwf herr hread hnl hlen hne hun
    refine ⟨j1, jf1, hrep, hos, hreg1, hoth, hname, by rw [hun1, hrest], ?_, ?_, ?_⟩
    · intro line2 rest2 hr; rw [hrest] at hr; simp at hr
    · intro line2 hr hne2; rw [hrest] at hr; exact absurd hr.symm hne2
    · intro _ replay2
      exact Replay_after_tail j1 filename jf1 hreg1 herr1 hbuf1 replay2

theorem replay_delivers_one_line_witness :
    (Replay sampleOpened "j" (fun _ => some Error.ErrBusy)).2 = (some Error.ErrBusy, [[97]]) ∧
    (Replay (Replay sampleOpened "j" (fun _ => some Error.ErrBusy)).1 "j" (fun _ => none)).2
      = (none, [[98]]) := by
  obtain ⟨j1, jf1, h, _, _, _, _, _, hnext, _⟩ :=
    replay_delivers_one_line sampleOpened "j" { file := ⟨"j", 0⟩, scanner := NewScanner }
      [97] [98, 10] (by rfl) (by decide) (by rfl) (by rfl) (by decide) (by decide)
      (Or.inl (by rfl))
  rw [h]
  exact ⟨rfl, hnext [98] [] (by rfl) (by decide) (by decide) (fun _ => none)⟩

/-- C7 as stated fails: the unread line is "a\r" followed by the terminator, and the
callback is invoked with "a", not with "a\r". -/
theorem replay_strips_carriage_return :
    (sampleCR.journals "j").map (journalFile.unread sampleCR.os) = some ([97, 13] ++ [NL]) ∧
    (Replay sampleCR "j" (fun _ => none)).2.2 = [[97]] ∧
    (Replay sampleCR "j" (fun _ => none)).2.2 ≠ [[97, 13]] := by
  decide

/-- C8 (amended): once a Replay has returned EOF without invoking the callback,
the handle stays at the end of its input: in every state that holds the same
handle for the name, Replay returns EOF, does not invoke the callback and leaves
the whole state unchanged. -/
theorem replay_end_is_sticky (j j1 : State) (filename : String)
    (replay : Bytes → Option Error)
    (h : Replay j filename replay = (j1, some Error.EOF, [])) :
    ∀ j2, j2.journals filename = j1.journals filename →
      ∀ replay2, Replay j2 filename replay2 = (j2, some Error.EOF, []) := by
  cases hreg : j.journals filename with
  | none =>
    unfold Replay at h
    rw [hreg] at h
    simp at h
  | some jf =>
    cases hs : jf.scanner.Scan j.os jf.file with
    | mk ok p =>
      obtain ⟨f1, s1⟩ := p
      cases ok with
      | true =>
        rw [Replay_of_Scan_true j filename jf f1 s1 hreg hs replay] at h
        simp at h
      | false =>
        rw [Replay_of_Scan_false j filename jf f1 s1 hreg hs replay] at h
        simp only [Prod.mk.injEq, and_true] at h
        obtain ⟨hj1, hE⟩ := h
        have hE2 : s1.Err = none := by
          by_contra hc
          rw [if_neg hc] at hE
          exact Err_ne_EOF s1 hE
        obtain ⟨e1, e2, e3, e4⟩ := Scan_false_eof j.os jf.file f1 jf.scanner s1 hs hE2
        intro j2 hj2 replay2
        have hreg2 : j2.journals filename = some { file := f1, scanner := s1 } := by
          rw [hj2, ← hj1]; simp
        exact Replay_at_end j2 filename _ hreg2 e1 e2 e3 e4 replay2

theorem replay_end_is_sticky_witness :
    (Replay sampleDrained "j" (fun _ => none)).2 = (some Error.EOF, []) ∧
    Replay (Replay sampleDrained "j" (fun _ => none)).1 "j" (fun _ => some Error.ErrBusy)
      = ((Replay sampleDrained "j" (fun _ => none)).1, some Error.EOF, []) := by
  have h : Replay sampleDrained "j" (fun _ => none)
      = ((Replay sampleDrained "j" (fun _ => none)).1, some Error.EOF, []) := by
    apply Prod.ext
    · rfl
    · decide
  exact ⟨by decide, replay_end_is_sticky sampleDrained _ "j" _ h _ rfl _⟩

/-- C8 as stated fails: a Replay returns io.EOF because the callback returned it,
and the next Replay invokes its callback with the following line. -/
theorem replay_eof_from_callback :
    (Replay sampleOpened "j" (fun _ => some Error.EOF)).2.1 = some Error.EOF ∧
    (Replay (Replay sampleOpened "j" (fun _ => some Error.EOF)).1 "j" (fun _ => none)).2
      = (none, [[98]]) := by
  decide

theorem Read_name (os : OS) (f : File) (len : Nat) : (f.Read os len).2.2.name = f.name := by
  unfold File.Read
  split
  · rfl
  · simp only
    split <;> rfl

theorem fill_name (os : OS) (f : File) (s : Scanner) : (s.fill os f).1.name = f.name := by
  have h := Read_name os f (s.cap - (s.start + s.buf.length))
  unfold Scanner.fill
  split
  · rename_i heq; rw [heq] at h; exact h
  · rename_i heq; rw [heq] at h
    split <;> exact h

theorem readStep_name (os : OS) (f : File) (s : Scanner) :
    (s.readStep os f).2.1.name = f.name := by
  unfold Scanner.readStep
  split
  · rfl
  · split
    · rfl
    · exact fill_name os f _

theorem scanLoop_name (os : OS) : ∀ (fuel : Nat) (f : File) (s : Scanner)
    (r : Bool × File × Scanner), Scanner.scanLoop os fuel f s = some r → r.2.1.name = f.name := by
  intro fuel
  induction fuel with
  | zero => intro f s r h; simp [Scanner.scanLoop] at h
  | succ n ih =>
    intro f s r h
    unfold Scanner.scanLoop at h
    split at h
    · simp only [Option.some.injEq] at h; rw [← h]
    · rename_i s1 _
      have hn := readStep_name os f s1
      split at h
      · rename_i heq
        rw [heq] at hn
        simp only [Option.some.injEq] at h; rw [← h]; exact hn
      · rename_i heq
        rw [heq] at hn
        exact (ih _ _ r h).trans hn

theorem Scan_name (os : OS) (f : File) (s : Scanner) : (s.Scan os f).2.1.name = f.name := by
  obtain ⟨r, hr, hs⟩ := Scan_eq_of_scanLoop os f s
  rw [hs]
  exact scanLoop_name os _ f s r hr

theorem Replay_journals (j : State) (filename : String) (replay : Bytes → Option Error) :
    (∀ n, ((Replay j filename replay).1.journals n).map (fun h => h.file.name)
        = (j.journals n).map (fun h => h.file.name)) ∧
    (∀ n, n ≠ filename → (Replay j filename replay).1.journals n = j.journals n) ∧
    (Replay j filename replay).1.os = j.os := by
  cases hreg : j.journals filename with
  | none =>
    have : Replay j filename replay = (j, some Error.ErrNotFound, []) := by
      unfold Replay; rw [hreg]
    rw [this]
    exact ⟨fun _ => rfl, fun _ _ => rfl, rfl⟩
  | some jf =>
    have hn := Scan_name j.os jf.file jf.scanner
    cases hs : jf.scanner.Scan j.os jf.file with
    | mk ok p =>
      obtain ⟨f1, s1⟩ := p
      rw [hs] at hn
      simp only at hn
      have key : ∀ n, (Option.map (fun h : journalFile => h.file.name)
          (if n = filename then some { file := f1, scanner := s1 } else j.journals n))
          = (j.journals n).map (fun h => h.file.name) := by
        intro n
        by_cases h : n = filename
        · rw [if_pos h, h, hreg]; simp [hn]
        · rw [if_neg h]
      cases ok with
      | true =>
        rw [Replay_of_Scan_true j filename jf f1 s1 hreg hs replay]
        exact ⟨key, fun n h => by simp [h], rfl⟩
      | false =>
        rw [Replay_of_Scan_false j filename jf f1 s1 hreg hs replay]
        exact ⟨key, fun n h => by simp [h], rfl⟩

theorem Journal_journals (j : State) (filename : String) (content : Bytes) :
    (Journal j filename content).1.journals = j.journals := by
  cases hreg : (j.journals filename).isSome with
  | true => rw [Journal_busy j filename content hreg]
  | false =>
    rcases Journal_not_busy j filename content hreg with
      ⟨e, he⟩ | ⟨j2, e, he, h1⟩ | ⟨j2, he, h1, _⟩ <;> rw [he]
    · exact h1
    · exact h1

/-- C10 (amended): an append and a Replay never change which names are registered
nor the file a registered handle reads (Replay changes the cursor of the one
handle it scans and nothing else of the registry); a failing Open and a Close
that returns ErrNotFound leave the whole state unchanged; a Close that fails
because closing the file fails has removed the entry of the name and has left
every other entry unchanged. -/
theorem failed_call_registry (j : State) (filename : String) (content : Bytes)
    (replay : Bytes → Option Error) :
    (Journal j filename content).1.journals = j.journals ∧
    ((Open j filename).2 ≠ none → (Open j filename).1 = j) ∧
    ((Close j filename).2 = some Error.ErrNotFound → (Close j filename).1 = j) ∧
    ((Close j filename).2 ≠ none → (Close j filename).2 ≠ some Error.ErrNotFound →
      (Close j filename).1.journals filename = none ∧
      (∀ n, n ≠ filename → (Close j filename).1.journals n = j.journals n) ∧
      (Close j filename).1.os = j.os) ∧
    (∀ n, ((Replay j filename replay).1.journals n).map (fun h => h.file.name)
        = (j.journals n).map (fun h => h.file.name)) ∧
    (∀ n, n ≠ filename → (Replay j filename replay).1.journals n = j.journals n) := by
  refine ⟨Journal_journals j filename content, ?_, ?_, ?_,
    (Replay_journals j filename replay).1, (Replay_journals j filename replay).2.1⟩
  · intro h
    unfold Open at h ⊢
    by_cases hreg : (j.journals filename).isSome = true
    · rw [if_pos hreg]
    · rw [if_neg hreg] at h ⊢
      cases heq : osOpen j.os filename with
      | error e => rfl
      | ok f => rw [heq] at h; simp at h
  · intro h
    unfold Close at h ⊢
    split
    · rfl
    · rename_i jf heq
      rw [heq] at h
      simp only [File.Close] at h
      split at h <;> simp at h
  · intro h hnf
    unfold Close at h hnf ⊢
    split
    · rename_i heq
      rw [heq] at hnf
      simp at hnf
    · exact ⟨by simp, fun n hn => by simp [hn], rfl⟩

/-- C10 as stated fails: closing "j" fails in the operating system, Close returns
that error, and the registry no longer holds the handle of "j". -/
theorem close_error_unregisters :
    (Close sampleCloseFails "j").2 = some (Error.PathError "close" "j" 5) ∧
    (sampleCloseFails.journals "j").isSome = true ∧
    (Close sampleCloseFails "j").1.journals "j" = none := by
  decide

/-- Replay on a healthy handle whose next `MaxScanTokenSize` bytes hold no
terminator returns the scanner's `ErrTooLong` and does not invoke the callback. -/
theorem Replay_long (j : State) (filename : String) (jf : journalFile) (pending : Bytes)
    (hreg : j.journals filename = some jf) (hwf : jf.scanner.WF)
    (herr : jf.scanner.err = none) (hread : j.os.fault Syscall.read jf.file.name = none)
    (hnl : NL ∉ pending.take MaxScanTokenSize) (hlen : MaxScanTokenSize ≤ pending.length)
    (hun : jf.unread j.os = pending) (replay : Bytes → Option Error) :
    (Replay j filename replay).2 = (some Error.ErrTooLong, []) ∧
    ∃ jf1, (Replay j filename replay).1.journals filename = some jf1 ∧
      jf1.scanner.err = some Error.ErrTooLong ∧
      jf1.scanner.buf = pending.take MaxScanTokenSize := by
  obtain ⟨f1, s1, hs, he1, hb1⟩ :=
    Scan_long j.os jf.file jf.scanner pending hwf herr hread hnl hlen hun
  rw [Replay_of_Scan_false j filename jf f1 s1 hreg hs replay]
  have : s1.Err = some Error.ErrTooLong := by simp [Scanner.Err, he1]
  refine ⟨by simp [this], { file := f1, scanner := s1 }, by simp, he1, hb1⟩

theorem longLine_length : longLine.length = MaxScanTokenSize := by
  simp [longLine]

theorem longLine_no_NL : NL ∉ longLine := by
  intro h
  have := List.eq_of_mem_replicate h
  exact absurd this (by decide)

theorem longLine_last (tail : Bytes) (c : Byte) (h : (longLine ++ tail).getLast? = some c) :
    c = 97 ∨ c ∈ tail := by
  have hm := List.mem_of_getLast?_eq_some h
  rcases List.mem_append.mp hm with h1 | h1
  · exact Or.inl (List.eq_of_mem_replicate h1)
  · exact Or.inr h1

/-- The sample registry of a record without terminator: a fresh handle on a
file that holds the record and the terminator. -/
theorem sampleOf_handle (record : Bytes) (hnl : NL ∉ record) :
    (sampleOf record).journals "j" = some { file := ⟨"j", 0⟩, scanner := NewScanner } ∧
    (sampleOf record).os.files "j" = some (record ++ [NL]) ∧
    (sampleOf record).os.fault Syscall.read "j" = none ∧
    journalFile.unread (sampleOf record).os { file := ⟨"j", 0⟩, scanner := NewScanner }
      = record ++ [NL] := by
  have hlast : record.getLast? ≠ some NL := fun h => hnl (List.mem_of_getLast?_eq_some h)
  have hterm := terminated_of_not_last record hlast
  have hfile : (sampleOf record).os.files "j" = some ([] ++ terminated record) := rfl
  have hfile2 : (sampleOf record).os.files "j" = some (record ++ [NL]) := by
    rw [hfile, hterm]; rfl
  refine ⟨rfl, hfile2, rfl, ?_⟩
  simp [journalFile.unread, File.rest, hfile2, NewScanner]

/-- Replay on a handle that has recorded an error and still holds bytes without a
terminator passes those bytes to the callback as a line. -/
theorem Replay_leftover (j : State) (filename : String) (jf : journalFile)
    (hreg : j.journals filename = some jf) (herr : jf.scanner.err ≠ none)
    (hne : jf.scanner.buf ≠ []) (hnl : NL ∉ jf.scanner.buf) (replay : Bytes → Option Error) :
    (Replay j filename replay).2 = (replay (dropCR jf.scanner.buf), [dropCR jf.scanner.buf]) := by
  have hs : jf.scanner.Scan j.os jf.file =
      (true, jf.file, { jf.scanner with buf := [], start := jf.scanner.start + jf.scanner.buf.length, token := dropCR jf.scanner.buf }) := by
    unfold Scanner.Scan
    have hfuel : scanFuel j.os jf.file
        = (((j.os.files jf.file.name).getD []).length - jf.file.offset + 1) + 1 := rfl
    rw [hfuel]
    unfold Scanner.scanLoop
    rw [tokenStep_atEOF_final herr hne (IndexByte_eq_none.mpr hnl)]
  rw [Replay_of_Scan_true j filename jf _ _ hreg hs replay]

/-- C9: on a journal whose first line has `MaxScanTokenSize` bytes before its
terminator, Replay returns the scanner's error `bufio.ErrTooLong` without invoking
the callback; that error is not the package's `ErrLineTooLong`. -/
theorem replay_too_long_is_scanner_error :
    (Replay sampleLong "j" (fun _ => none)).2 = (some Error.ErrTooLong, []) ∧
    Error.ErrTooLong ≠ Error.ErrLineTooLong := by
  obtain ⟨hreg, _, hread, hun⟩ := sampleOf_handle longLine longLine_no_NL
  refine ⟨?_, by decide⟩
  apply (Replay_long sampleLong "j" _ (longLine ++ [NL]) hreg (by decide) rfl hread
    ?_ ?_ hun _).1
  · rw [List.take_left' longLine_length]
    exact longLine_no_NL
  · rw [List.length_append, longLine_length]
    exact Nat.le_add_right _ _

/-- After the scanner has recorded `ErrTooLong`, the next Replay passes the first
`MaxScanTokenSize` bytes of the over-long line to the callback as if they were a
line: the journal holds the line `longLine ++ "b"`, the first Replay returns
`ErrTooLong`, and the second Replay invokes the callback with `longLine`. -/
theorem replay_after_too_long_passes_chunk :
    sampleLonger.os.files "j" = some ((longLine ++ [98]) ++ [NL]) ∧
    (Replay sampleLonger "j" (fun _ => none)).2 = (some Error.ErrTooLong, []) ∧
    (Replay (Replay sampleLonger "j" (fun _ => none)).1 "j" (fun _ => none)).2
      = (none, [longLine]) := by
  have hnl : NL ∉ longLine ++ [98] := by
    intro h
    rcases List.mem_append.mp h with h1 | h1
    · exact longLine_no_NL h1
    · simp [NL] at h1
  obtain ⟨hreg, hfile, hread, hun⟩ := sampleOf_handle (longLine ++ [98]) hnl
  have htake : List.take MaxScanTokenSize ((longLine ++ [98]) ++ [NL]) = longLine := by
    rw [List.append_assoc, List.take_left' longLine_length]
  obtain ⟨h1, jf1, hreg1, herr1, hbuf1⟩ :=
    Replay_long sampleLonger "j" _ ((longLine ++ [98]) ++ [NL]) hreg (by decide) rfl hread
      (by rw [htake]; exact longLine_no_NL)
      (by simp only [List.length_append, longLine_length]; omega)
      hun (fun _ => none)
  rw [htake] at hbuf1
  have hne : jf1.scanner.buf ≠ [] := by
    rw [hbuf1]
    intro h
    have := congrArg List.length h
    rw [longLine_length] at this
    exact absurd this (by decide)
  have h2 := Replay_leftover _ "j" jf1 hreg1 (by rw [herr1]; simp) hne
    (by rw [hbuf1]; exact longLine_no_NL) (fun _ => none)
  rw [hbuf1] at h2
  have hcr : dropCR longLine = longLine := by
    apply dropCR_of_last
    intro h
    have h3 : (longLine ++ []).getLast? = some CR := by rw [List.append_nil]; exact h
    rcases longLine_last [] CR h3 with h4 | h4
    · exact absurd h4 (by decide)
    · simp at h4
  rw [hcr] at h2
  exact ⟨hfile, h1, h2⟩

theorem journalAll_success (filename : String) : ∀ (records : List Bytes) (j : State),
    (∀ r ∈ records, NL ∉ r) →
    (∀ e ∈ (journalAll j filename records).2, e = none) →
    (journalAll j filename records).1.journals = j.journals ∧
    (journalAll j filename records).1.os.fault = j.os.fault ∧
    ((journalAll j filename records).1.os.files filename).getD []
      = (j.os.files filename).getD [] ++ linesOf records ∧
    (records ≠ [] → ((journalAll j filename records).1.os.files filename).isSome = true) := by
  intro records
  induction records with
  | nil =>
    intro j _ _
    simp [journalAll, linesOf]
  | cons r rs ih =>
    intro j hnl hok
    simp only [journalAll, List.mem_cons, forall_eq_or_imp] at hok
    obtain ⟨h1, h2⟩ := hok
    have hJ : Journal j filename r = ((Journal j filename r).1, none) :=
      Prod.ext rfl h1
    obtain ⟨_, hj, hfile, _, hfault, _⟩ := Journal_success j _ filename r hJ
    obtain ⟨i1, i2, i3, i4⟩ := ih (Journal j filename r).1
      (fun x hx => hnl x (List.mem_cons_of_mem _ hx)) h2
    have hr : NL ∉ r := hnl r (List.mem_cons_self _ _)
    have hterm : terminated r = r ++ [NL] :=
      terminated_of_not_last r (fun h => hr (List.mem_of_getLast?_eq_some h))
    simp only [journalAll]
    refine ⟨i1.trans hj, i2.trans hfault, ?_, ?_⟩
    · rw [i3, hfile, hterm]
      simp [linesOf]
    · intro _
      cases rs with
      | nil => simp [journalAll, hfile]
      | cons a as => exact i4 (by simp)

theorem replayAll_lines (filename : String) : ∀ (records : List Bytes)
    (visits : List (Bytes → Option Error)) (j : State) (jf : journalFile),
    visits.length = records.length →
    (∀ r ∈ records, NL ∉ r ∧ r.getLast? ≠ some CR ∧ r.length < MaxScanTokenSize) →
    j.journals filename = some jf → jf.scanner.WF → jf.scanner.err = none →
    j.os.fault Syscall.read jf.file.name = none →
    jf.unread j.os = linesOf records →
    (replayAll j filename visits).2 = List.zipWith (fun v r => (v r, [r])) visits records ∧
    ∀ replay, (Replay (replayAll j filename visits).1 filename replay).2
      = (some Error.EOF, []) := by
  intro records
  induction records with
  | nil =>
    intro visits j jf hlen _ hreg hwf herr hread hun
    have hv : visits = [] := List.length_eq_zero.mp hlen
    subst hv
    refine ⟨rfl, ?_⟩
    intro replay
    exact Replay_empty j filename jf hreg hwf herr hread hun replay
  | cons r rs ih =>
    intro visits j jf hlen hrec hreg hwf herr hread hun
    cases visits with
    | nil => simp at hlen
    | cons v vs =>
      obtain ⟨hnl, hcr, hl⟩ := hrec r (List.mem_cons_self _ _)
      have hun2 : jf.unread j.os = r ++ NL :: linesOf rs := by
        rw [hun]; simp [linesOf]
      obtain ⟨j1, jf1, hrep, hos, hreg1, _, hname, hwf1, herr1, hun1⟩ :=
        Replay_line j filename jf r (linesOf rs) hreg hwf herr hread hnl hl hun2
      have hread1 : j1.os.fault Syscall.read jf1.file.name = none := by
        rw [hos, hname]; exact hread
      obtain ⟨i1, i2⟩ := ih vs j1 jf1 (by simpa using hlen)
        (fun x hx => hrec x (List.mem_cons_of_mem _ hx)) hreg1 hwf1 herr1 hread1 hun1
      simp only [replayAll, hrep, List.zipWith_cons_cons, dropCR_of_last r hcr]
      exact ⟨by rw [i1], i2⟩

theorem NewScanner_WF : NewScanner.WF := by decide

theorem Open_success (j : State) (filename : String) (content : Bytes)
    (hreg : j.journals filename = none)
    (hopen : j.os.fault Syscall.openRead filename = none)
    (hfile : j.os.files filename = some content) :
    Open j filename =
      ({ j with journals := fun n =>
          if n = filename then some { file := ⟨filename, 0⟩, scanner := NewScanner }
          else j.journals n }, none) := by
  simp [Open, hreg, osOpen, hopen, hfile]

/-- C1 (amended): records without a terminator inside, not ending in "\r" and
shorter than `MaxScanTokenSize` are appended, all appends succeeding, to a name
whose file does not exist and which is not open for replay; no open or read
system call fails on the name. Then Open succeeds, the i-th of the next N Replay
calls invokes its callback exactly once, with the i-th record, and returns what
the callback returned (so none of them returns EOF unless its callback does),
and the Replay call after them returns EOF without invoking its callback. -/
theorem journal_replay_round_trip (j : State) (filename : String) (records : List Bytes)
    (visits : List (Bytes → Option Error))
    (hN : 1 ≤ records.length)
    (hrec : ∀ r ∈ records, NL ∉ r ∧ r.getLast? ≠ some CR ∧ r.length < MaxScanTokenSize)
    (hfile : j.os.files filename = none) (hreg : j.journals filename = none)
    (hok : ∀ e ∈ (journalAll j filename records).2, e = none)
    (hopen : j.os.fault Syscall.openRead filename = none)
    (hread : j.os.fault Syscall.read filename = none)
    (hv : visits.length = records.length) :
    (Open (journalAll j filename records).1 filename).2 = none ∧
    (replayAll (Open (journalAll j filename records).1 filename).1 filename visits).2
      = List.zipWith (fun v r => (v r, [r])) visits records ∧
    ((∀ v ∈ visits, ∀ r, v r ≠ some Error.EOF) →
      ∀ out ∈ (replayAll (Open (journalAll j filename records).1 filename).1 filename visits).2,
        out.1 ≠ some Error.EOF) ∧
    (∀ replay,
      (Replay (replayAll (Open (journalAll j filename records).1 filename).1 filename visits).1
        filename replay).2 = (some Error.EOF, [])) := by
  have hne : records ≠ [] := by
    intro h; rw [h] at hN; simp at hN
  obtain ⟨a1, a2, a3, a4⟩ := journalAll_success filename records j (fun r hr => (hrec r hr).1) hok
  have hsome := a4 hne
  obtain ⟨content, hc⟩ := Option.isSome_iff_exists.mp hsome
  have hcontent : content = linesOf records := by
    rw [hc, hfile] at a3
    simpa using a3
  have hO := Open_success (journalAll j filename records).1 filename content
    (by rw [a1]; exact hreg) (by rw [a2]; exact hopen) hc
  have hj2 : ∃ j2 : State, Open (journalAll j filename records).1 filename = (j2, none) ∧
      j2.os = (journalAll j filename records).1.os ∧
      j2.journals filename = some { file := ⟨filename, 0⟩, scanner := NewScanner } :=
    ⟨_, hO, rfl, by simp⟩
  obtain ⟨j2, hO2, hos, hreg2⟩ := hj2
  rw [hO2]
  simp only
  obtain ⟨b1, b2⟩ := replayAll_lines filename records visits j2
    { file := ⟨filename, 0⟩, scanner := NewScanner } hv hrec
    hreg2 NewScanner_WF rfl (by rw [hos, a2]; exact hread)
    (by simp [journalFile.unread, File.rest, NewScanner, hos, hc, hcontent])
  refine ⟨trivial, b1, ?_, b2⟩
  intro hvis out hout
  rw [b1] at hout
  obtain ⟨i, hi, rfl⟩ := List.mem_iff_getElem.mp hout
  simp only [List.getElem_zipWith]
  exact hvis _ (List.getElem_mem _) _

theorem journal_replay_round_trip_witness :
    (Open (journalAll (NewJournal quietOS) "j" [[97], [98]]).1 "j").2 = none ∧
    (replayAll (Open (journalAll (NewJournal quietOS) "j" [[97], [98]]).1 "j").1 "j"
        [fun _ => none, fun _ => some Error.ErrBusy]).2
      = [(none, [[97]]), (some Error.ErrBusy, [[98]])] ∧
    (Replay (replayAll (Open (journalAll (NewJournal quietOS) "j" [[97], [98]]).1 "j").1 "j"
        [fun _ => none, fun _ => some Error.ErrBusy]).1 "j" (fun _ => none)).2
      = (some Error.EOF, []) := by
  have h := journal_replay_round_trip (NewJournal quietOS) "j" [[97], [98]]
    [fun _ => none, fun _ => some Error.ErrBusy] (by decide) (by decide) rfl rfl (by decide)
    rfl rfl rfl
  exact ⟨h.1, h.2.1, h.2.2.2 _⟩

/-- C1 as stated fails: the record "a\r" holds no terminator, its append and the
Open succeed, and the first Replay passes "a" to the callback, not "a\r". -/
theorem round_trip_loses_carriage_return :
    (journalAll (NewJournal quietOS) "j" [[97, 13]]).2 = [none] ∧
    (Open (journalAll (NewJournal quietOS) "j" [[97, 13]]).1 "j").2 = none ∧
    (Replay (Open (journalAll (NewJournal quietOS) "j" [[97, 13]]).1 "j").1 "j"
      (fun _ => none)).2 = (none, [[97]]) := by
  decide

/-! ## The registry invariant and the termination of Scan -/

theorem setErr_WF (s : Scanner) (e : Error) (h : s.WF) : (s.setErr e).WF := by
  unfold Scanner.setErr
  split
  · exact h
  · exact h

theorem advance_WF (s : Scanner) (n : Nat) (h : s.WF) : (s.advance n).2.WF := by
  unfold Scanner.advance
  split
  · exact setErr_WF _ _ h
  · obtain ⟨h1, h2, h3⟩ := h
    exact ⟨by simp only [List.length_drop]; omega, h2, h3⟩

theorem tokenStep_WF (s : Scanner) (h : s.WF) : s.tokenStep.2.WF := by
  unfold Scanner.tokenStep
  split
  · cases hsl : ScanLines s.buf (decide (s.err ≠ none)) with
    | mk adv p =>
      obtain ⟨token, err⟩ := p
      cases err with
      | some e => exact setErr_WF _ _ h
      | none =>
        have ha := advance_WF s adv h
        cases hadv : s.advance adv with
        | mk ok s1 =>
          rw [hadv] at ha
          simp only [hadv]
          cases ok with
          | false => exact ha
          | true =>
            cases token with
            | some t => exact ha
            | none => exact ha
  · exact h

theorem Read_length (os : OS) (f : File) (len : Nat) : (f.Read os len).1.length ≤ len := by
  unfold File.Read
  split
  · simp
  · simp only
    split
    · simp
    · simp only [List.length_take]; omega

theorem fill_WF (os : OS) (f : File) (s : Scanner) (h : s.WF) : (s.fill os f).2.WF := by
  have hl := Read_length os f (s.cap - (s.start + s.buf.length))
  obtain ⟨h1, h2, h3⟩ := h
  unfold Scanner.fill
  split
  · rename_i data e f1 heq
    rw [heq] at hl
    apply setErr_WF
    exact ⟨by simp only [List.length_append] at hl ⊢; omega, h2, h3⟩
  · rename_i data f1 heq
    rw [heq] at hl
    split
    · exact ⟨by simp only [List.length_append] at hl ⊢; omega, h2, h3⟩
    · exact setErr_WF _ _ ⟨h1, h2, h3⟩

theorem grow_WF (s g : Scanner) (h : s.WF) (h0 : s.start + s.buf.length = s.cap → s.start = 0)
    (hg : s.grow = some g) : g.WF := by
  obtain ⟨g1, g2, _, _, g5, g6⟩ := grow_some s g h h0 hg
  exact ⟨by omega, g6, by rw [g2]; exact h.2.2⟩

theorem readStep_WF (os : OS) (f : File) (s : Scanner) (h : s.WF) :
    (s.readStep os f).2.2.WF := by
  obtain ⟨_, _, _, _, _, hswf, h0⟩ := shift_props s h
  unfold Scanner.readStep
  split
  · obtain ⟨h1, h2, h3⟩ := h
    exact ⟨by simp only [List.length_nil]; omega, h2, h3⟩
  · cases hg : s.shift.grow with
    | none => exact setErr_WF _ _ hswf
    | some g => exact fill_WF os f g (grow_WF s.shift g hswf h0 hg)

theorem scanLoop_WF (os : OS) : ∀ (fuel : Nat) (f : File) (s : Scanner)
    (r : Bool × File × Scanner), s.WF → Scanner.scanLoop os fuel f s = some r → r.2.2.WF := by
  intro fuel
  induction fuel with
  | zero => intro f s r _ h; simp [Scanner.scanLoop] at h
  | succ n ih =>
    intro f s r hwf h
    unfold Scanner.scanLoop at h
    have ht := tokenStep_WF s hwf
    split at h
    · rename_i heq
      rw [heq] at ht
      simp only [Option.some.injEq] at h; rw [← h]; exact ht
    · rename_i s1 heq
      rw [heq] at ht
      have hr := readStep_WF os f s1 ht
      split at h
      · rename_i heq2
        rw [heq2] at hr
        simp only [Option.some.injEq] at h; rw [← h]; exact hr
      · rename_i heq2
        rw [heq2] at hr
        exact ih _ _ r hr h

theorem Scan_WF (os : OS) (f : File) (s : Scanner) (h : s.WF) : (s.Scan os f).2.2.WF := by
  obtain ⟨r, hr, hs⟩ := Scan_eq_of_scanLoop os f s
  rw [hs]
  exact scanLoop_WF os _ f s r h hr

theorem Replay_handle (j : State) (filename : String) (jf : journalFile)
    (hreg : j.journals filename = some jf) (replay : Bytes → Option Error) :
    (Replay j filename replay).1.journals filename =
      some { file := (jf.scanner.Scan j.os jf.file).2.1,
             scanner := (jf.scanner.Scan j.os jf.file).2.2 } := by
  cases hs : jf.scanner.Scan j.os jf.file with
  | mk ok p =>
    obtain ⟨f1, s1⟩ := p
    cases ok with
    | true => rw [Replay_of_Scan_true j filename jf f1 s1 hreg hs replay]; simp
    | false => rw [Replay_of_Scan_false j filename jf f1 s1 hreg hs replay]; simp

/-- The registry invariant holds in the empty registry and is kept by each of the
four operations, whatever they return. -/
theorem registry_invariant (os : OS) (j : State) (filename : String) (content : Bytes)
    (replay : Bytes → Option Error) :
    (NewJournal os).WF ∧
    (j.WF → (Journal j filename content).1.WF ∧ (Open j filename).1.WF ∧
      (Close j filename).1.WF ∧ (Replay j filename replay).1.WF) := by
  refine ⟨?_, ?_⟩
  · intro n jf h
    simp [NewJournal] at h
  · intro hwf
    refine ⟨?_, ?_, ?_, ?_⟩
    · intro n jf h
      rw [Journal_journals j filename content] at h
      exact hwf n jf h
    · unfold Open
      split
      · exact hwf
      · cases ho : osOpen j.os filename with
        | error e => exact hwf
        | ok f =>
          have hname : f.name = filename := by
            unfold osOpen at ho
            split at ho
            · simp at ho
            · split at ho
              · simp only [Except.ok.injEq] at ho; rw [← ho]
              · simp at ho
          intro n jf h
          simp only at h
          by_cases hn : n = filename
          · rw [if_pos hn] at h
            simp only [Option.some.injEq] at h
            rw [← h, hn]
            exact ⟨hname, NewScanner_WF⟩
          · rw [if_neg hn] at h
            exact hwf n jf h
    · unfold Close
      split
      · exact hwf
      · intro n jf h
        simp only at h
        by_cases hn : n = filename
        · rw [if_pos hn] at h; simp at h
        · rw [if_neg hn] at h
          exact hwf n jf h
    · intro n jf h
      by_cases hn : n = filename
      · cases hreg : j.journals filename with
        | none =>
          have : Replay j filename replay = (j, some Error.ErrNotFound, []) := by
            unfold Replay; rw [hreg]
          rw [this] at h
          exact hwf n jf h
        | some jf0 =>
          rw [hn, Replay_handle j filename jf0 hreg replay] at h
          simp only [Option.some.injEq] at h
          obtain ⟨h1, h2⟩ := hwf filename jf0 hreg
          rw [← h, hn]
          exact ⟨(Scan_name j.os jf0.file jf0.scanner).trans h1, Scan_WF j.os jf0.file jf0.scanner h2⟩
      · rw [(Replay_journals j filename replay).2.1 n hn] at h
        exact hwf n jf h

theorem scanLoop_mono (os : OS) : ∀ (fuel extra : Nat) (f : File) (s : Scanner)
    (r : Bool × File × Scanner), Scanner.scanLoop os fuel f s = some r →
    Scanner.scanLoop os (fuel + extra) f s = some r := by
  intro fuel
  induction fuel with
  | zero => intro extra f s r h; simp [Scanner.scanLoop] at h
  | succ n ih =>
    intro extra f s r h
    have e : n + 1 + extra = (n + extra) + 1 := by omega
    rw [e]
    unfold Scanner.scanLoop at h ⊢
    cases hts : s.tokenStep with
    | mk b s1 =>
      simp only [hts] at h ⊢
      cases b with
      | some b => exact h
      | none =>
        simp only at h ⊢
        cases hrs : s1.readStep os f with
        | mk b2 p =>
          obtain ⟨f2, s2⟩ := p
          simp only [hrs] at h ⊢
          cases b2 with
          | some b2 => exact h
          | none => exact ih extra _ _ r h

/-- Every Scan returns: the loop of `Scan` returns within `scanFuel` turns, whatever
the scanner, the file and the failing system calls, and more fuel does not
change what it returns. -/
theorem scan_terminates (os : OS) (f : File) (s : Scanner) :
    ∃ r, Scanner.scanLoop os (scanFuel os f) f s = some r ∧ s.Scan os f = r ∧
      ∀ extra, Scanner.scanLoop os (scanFuel os f + extra) f s = some r := by
  obtain ⟨r, hr, hs⟩ := Scan_eq_of_scanLoop os f s
  exact ⟨r, hr, hs, fun extra => scanLoop_mono os _ extra f s r hr⟩

/-! ## Open and Replay on an unregistered name -/

theorem Replay_unregistered (j : State) (filename : String) (replay : Bytes → Option Error)
    (hreg : j.journals filename = none) :
    Replay j filename replay = (j, some Error.ErrNotFound, []) := by
  unfold Replay; rw [hreg]

theorem Close_unregistered (j : State) (filename : String)
    (hreg : j.journals filename = none) :
    Close j filename = (j, some Error.ErrNotFound) := by
  unfold Close; rw [hreg]

theorem Journal_unregistered_not_busy (j : State) (filename : String) (content : Bytes)
    (hreg : j.journals filename = none) :
    (Journal j filename content).2 ≠ some Error.ErrBusy := by
  have h2 : (j.journals filename).isSome = false := by rw [hreg]; rfl
  rcases Journal_not_busy j filename content h2 with ⟨e, he⟩ | ⟨j1, e, he, _⟩ | ⟨j1, he, _⟩
    <;> rw [he] <;> simp

/-- C11: Open on a name that is not open for replay and whose file does not exist
or cannot be opened returns the error of the failed open itself (an
`*os.PathError`, neither ErrBusy nor ErrNotFound) and leaves the whole state
unchanged: no file is created and no handle is registered, so afterwards Replay
and Close on the name return ErrNotFound and an append is not refused with
ErrBusy. -/
theorem failed_open_registers_nothing (j : State) (filename : String)
    (hreg : j.journals filename = none)
    (hfail : j.os.files filename = none ∨
      (j.os.fault Syscall.openRead filename).isSome = true) :
    ∃ e, osOpen j.os filename = Except.error e ∧ Open j filename = (j, some e) ∧
      e ≠ Error.ErrBusy ∧ e ≠ Error.ErrNotFound ∧
      (∀ replay, Replay (Open j filename).1 filename replay
        = ((Open j filename).1, some Error.ErrNotFound, [])) ∧
      Close (Open j filename).1 filename = ((Open j filename).1, some Error.ErrNotFound) ∧
      (∀ content, (Journal (Open j filename).1 filename content).2 ≠ some Error.ErrBusy) := by
  have hos : ∃ errno, osOpen j.os filename
      = Except.error (Error.PathError "open" filename errno) := by
    unfold osOpen
    cases hf : j.os.fault Syscall.openRead filename with
    | some errno => exact ⟨errno, rfl⟩
    | none =>
      rcases hfail with h | h
      · rw [h]; exact ⟨ENOENT, rfl⟩
      · rw [hf] at h; simp at h
  obtain ⟨errno, he⟩ := hos
  have hO : Open j filename = (j, some (Error.PathError "open" filename errno)) := by
    simp [Open, hreg, he]
  refine ⟨_, he, hO, by simp, by simp, ?_, ?_, ?_⟩
  · intro replay; rw [hO]; exact Replay_unregistered j filename replay hreg
  · rw [hO]; exact Close_unregistered j filename hreg
  · intro content; rw [hO]; exact Journal_unregistered_not_busy j filename content hreg

theorem failed_open_registers_nothing_witness :
    Open (NewJournal quietOS) "j"
      = (NewJournal quietOS, some (Error.PathError "open" "j" ENOENT)) ∧
    (Replay (Open (NewJournal quietOS) "j").1 "j" (fun _ => none)).2
      = (some Error.ErrNotFound, []) := by
  obtain ⟨e, he, hO, _, _, hR, _⟩ :=
    failed_open_registers_nothing (NewJournal quietOS) "j" rfl (Or.inl rfl)
  have : e = Error.PathError "open" "j" ENOENT := by
    have h2 : osOpen (NewJournal quietOS).os "j"
        = Except.error (Error.PathError "open" "j" ENOENT) := rfl
    rw [h2] at he
    exact (Except.error.inj he).symm
  rw [this] at hO
  refine ⟨hO, ?_⟩
  rw [hR]

/-- C12: Replay on a name without a registered handle (never opened, or opened and
closed since) returns ErrNotFound, does not invoke the callback, and leaves the
whole state (the registry and the bytes of every file) unchanged. -/
theorem replay_requires_open (j : State) (filename : String) (replay : Bytes → Option Error)
    (hreg : j.journals filename = none) :
    Replay j filename replay = (j, some Error.ErrNotFound, []) ∧
    (∀ j0, Replay (Close j0 filename).1 filename replay
      = ((Close j0 filename).1, some Error.ErrNotFound, [])) := by
  exact ⟨Replay_unregistered j filename replay hreg,
    fun j0 => Replay_unregistered _ filename replay (Close_unregisters j0 filename)⟩

theorem replay_requires_open_witness :
    Replay sampleWritten "j" (fun _ => none) = (sampleWritten, some Error.ErrNotFound, []) ∧
    Replay (Close sampleOpened "j").1 "j" (fun _ => none)
      = ((Close sampleOpened "j").1, some Error.ErrNotFound, []) := by
  have h := replay_requires_open sampleWritten "j" (fun _ => none) rfl
  exact ⟨h.1, h.2 sampleOpened⟩

/-! ## Replay as the reference line split -/

theorem refPieces_line (line rest : Bytes) (hnl : NL ∉ line) : ∀ piece : Bytes,
    refPieces piece (line ++ NL :: rest) = (piece ++ line) :: refPieces [] rest := by
  induction line with
  | nil => intro piece; simp [refPieces]
  | cons b t ih =>
    intro piece
    have hb : ¬ b = NL := fun e => hnl (by simp [e])
    have ht : NL ∉ t := fun e => hnl (by simp [e])
    have e : refPieces piece (b :: (t ++ NL :: rest))
        = refPieces (piece ++ [b]) (t ++ NL :: rest) := by
      simp [refPieces, hb]
    rw [List.cons_append, e, ih ht]
    simp

theorem refPieces_tail (line : Bytes) (hnl : NL ∉ line) : ∀ piece : Bytes,
    refPieces piece line = if piece ++ line = [] then [] else [piece ++ line] := by
  induction line with
  | nil => intro piece; simp [refPieces]
  | cons b t ih =>
    intro piece
    have hb : ¬ b = NL := fun e => hnl (by simp [e])
    have ht : NL ∉ t := fun e => hnl (by simp [e])
    simp only [refPieces, hb, if_false]
    rw [ih ht]
    simp

theorem refStrip_eq_dropCR (piece : Bytes) : refStrip piece = dropCR piece := by
  unfold refStrip dropCR
  by_cases h : piece.getLast? = some CR
  · have hpos : piece.length > 0 := by
      cases piece with
      | nil => simp at h
      | cons a t => simp
    rw [if_pos h, if_pos ⟨hpos, h⟩, List.dropLast_eq_take]
  · rw [if_neg h, if_neg (fun hc => h hc.2)]

/-- Every content either holds no terminator or splits at its first terminator. -/
theorem first_line (content : Bytes) :
    NL ∉ content ∨ ∃ line rest, content = line ++ NL :: rest ∧ NL ∉ line := by
  induction content with
  | nil => left; simp
  | cons b t ih =>
    by_cases hb : b = NL
    · right; exact ⟨[], t, by simp [hb], by simp⟩
    · rcases ih with h | ⟨line, rest, h1, h2⟩
      · left
        intro hm
        rcases List.mem_cons.mp hm with h3 | h3
        · exact hb h3.symm
        · exact h h3
      · right
        refine ⟨b :: line, rest, by simp [h1], ?_⟩
        intro hm
        rcases List.mem_cons.mp hm with h3 | h3
        · exact hb h3.symm
        · exact h2 h3

/-- Successive Replay calls on a healthy handle deliver the reference line split
of its unread bytes, then EOF. -/
theorem replayAll_refLines (filename : String) : ∀ (n : Nat) (content : Bytes),
    content.length ≤ n →
    ∀ (visits : List (Bytes → Option Error)) (j : State) (jf : journalFile),
    visits.length = (refLines content).length →
    (∀ p ∈ refPieces [] content, p.length < MaxScanTokenSize) →
    j.journals filename = some jf → jf.scanner.WF → jf.scanner.err = none →
    j.os.fault Syscall.read jf.file.name = none →
    jf.unread j.os = content →
    (replayAll j filename visits).2
      = List.zipWith (fun v l => (v l, [l])) visits (refLines content) ∧
    ∀ replay, (Replay (replayAll j filename visits).1 filename replay).2
      = (some Error.EOF, []) := by
  intro n
  induction n with
  | zero =>
    intro content hlen visits j jf hv _ hreg hwf herr hread hun
    have hc : content = [] := List.length_eq_zero.mp (Nat.le_zero.mp hlen)
    subst hc
    have hv0 : visits = [] := List.length_eq_zero.mp (by simpa [refLines, refPieces] using hv)
    subst hv0
    exact ⟨rfl, fun replay => Replay_empty j filename jf hreg hwf herr hread hun replay⟩
  | succ n ih =>
    intro content hlen visits j jf hv hlim hreg hwf herr hread hun
    rcases first_line content with hnl | ⟨line, rest, hc, hnl⟩
    · by_cases hemp : content = []
      · subst hemp
        have hv0 : visits = [] :=
          List.length_eq_zero.mp (by simpa [refLines, refPieces] using hv)
        subst hv0
        exact ⟨rfl, fun replay => Replay_empty j filename jf hreg hwf herr hread hun replay⟩
      · have hp : refPieces [] content = [content] := by
          rw [refPieces_tail content hnl []]
          simp [hemp]
        have hl : refLines content = [dropCR content] := by
          simp [refLines, hp, refStrip_eq_dropCR]
        rw [hl] at hv ⊢
        cases visits with
        | nil => simp at hv
        | cons v vs =>
          have hvs : vs = [] := List.length_eq_zero.mp (by simpa using hv)
          subst hvs
          have hlen2 : content.length < MaxScanTokenSize := hlim content (by rw [hp]; simp)
          obtain ⟨j1, jf1, hrep, _, hreg1, _, _, _, herr1, hbuf1, _⟩ :=
            Replay_tail j filename jf content hreg hwf herr hread hnl hlen2 hemp hun
          simp only [replayAll, hrep, List.zipWith_cons_cons, List.zipWith_nil_right]
          exact ⟨trivial, fun replay => Replay_after_tail j1 filename jf1 hreg1 herr1 hbuf1 replay⟩
    · subst hc
      have hp : refPieces [] (line ++ NL :: rest) = line :: refPieces [] rest := by
        rw [refPieces_line line rest hnl []]; simp
      have hl : refLines (line ++ NL :: rest) = dropCR line :: refLines rest := by
        simp [refLines, hp, refStrip_eq_dropCR]
      rw [hl] at hv ⊢
      cases visits with
      | nil => simp at hv
      | cons v vs =>
        have hlen2 : line.length < MaxScanTokenSize := hlim line (by rw [hp]; simp)
        obtain ⟨j1, jf1, hrep, hos, hreg1, _, hname, hwf1, herr1, hun1⟩ :=
          Replay_line j filename jf line rest hreg hwf herr hread hnl hlen2 hun
        have hread1 : j1.os.fault Syscall.read jf1.file.name = none := by
          rw [hos, hname]; exact hread
        have hrl : rest.length ≤ n := by
          simp only [List.length_append, List.length_cons] at hlen; omega
        obtain ⟨i1, i2⟩ := ih rest hrl vs j1 jf1 (by simpa using hv)
          (fun p hpm => hlim p (by rw [hp]; exact List.mem_cons_of_mem _ hpm))
          hreg1 hwf1 herr1 hread1 hun1
        simp only [replayAll, hrep, List.zipWith_cons_cons]
        exact ⟨by rw [i1], i2⟩

theorem refPieces_count (content : Bytes) : ∀ piece : Bytes,
    (refPieces piece (content ++ [NL])).length = content.count NL + 1 := by
  induction content with
  | nil => intro piece; simp [refPieces]
  | cons b t ih =>
    intro piece
    by_cases hb : b = NL
    · subst hb
      have e : refPieces piece (NL :: (t ++ [NL])) = piece :: refPieces [] (t ++ [NL]) := by
        simp [refPieces]
      rw [List.cons_append, e, List.length_cons, ih, List.count_cons_self]
    · have e : refPieces piece (b :: (t ++ [NL])) = refPieces (piece ++ [b]) (t ++ [NL]) := by
        simp [refPieces, hb]
      rw [List.cons_append, e, ih, List.count_cons_of_ne (fun h => hb h.symm)]

theorem visited_of_zipWith : ∀ (visits : List (Bytes → Option Error)) (lines : List Bytes),
    visits.length = lines.length →
    ((List.zipWith (fun v l => ((v l, [l]) : Option Error × List Bytes)) visits lines).map
      (fun out => out.2)).flatten = lines := by
  intro visits
  induction visits with
  | nil => intro lines h; simp at h; simp [List.length_eq_zero.mp h.symm]
  | cons v vs ih =>
    intro lines h
    cases lines with
    | nil => simp at h
    | cons l ls =>
      simp only [List.zipWith_cons_cons, List.map_cons, List.flatten_cons, List.singleton_append]
      rw [ih ls (by simpa using h)]

theorem results_not_EOF (visits : List (Bytes → Option Error)) (lines : List Bytes)
    (hvis : ∀ v ∈ visits, ∀ l, v l ≠ some Error.EOF) :
    ∀ out ∈ List.zipWith (fun v l => ((v l, [l]) : Option Error × List Bytes)) visits lines,
      out.1 ≠ some Error.EOF := by
  intro out hout
  obtain ⟨i, hi, rfl⟩ := List.mem_iff_getElem.mp hout
  simp only [List.getElem_zipWith]
  exact hvis _ (List.getElem_mem _) _

theorem refLines_record_CR (r : Bytes) (hnl : NL ∉ r) :
    refLines (terminated (r ++ [CR])) = [r] := by
  have hlast : (r ++ [CR]).getLast? ≠ some NL := by
    simp [CR, NL]
  rw [terminated_of_not_last _ hlast]
  have hnl2 : NL ∉ r ++ [CR] := by
    intro h
    rcases List.mem_append.mp h with h1 | h1
    · exact hnl h1
    · simp [NL, CR] at h1
  have hp : refPieces [] ((r ++ [CR]) ++ [NL]) = [r ++ [CR]] := by
    rw [refPieces_line (r ++ [CR]) [] hnl2 []]
    simp [refPieces]
  unfold refLines
  rw [hp]
  simp [refStrip]

theorem refLines_count (content : Bytes) (hlast : content.getLast? ≠ some NL) :
    (refLines (terminated content)).length = content.count NL + 1 := by
  rw [terminated_of_not_last _ hlast]
  simp [refLines, refPieces_count]

/-- C16: for a file content in which every piece between terminators is shorter
than `MaxScanTokenSize`, and a handle freshly opened on it, the successive Replay
calls pass exactly the reference line split of the content to their callbacks,
one line per call and in order, each call returning what its callback returned,
and the call after the last line returns EOF without invoking its callback. The
reference split cuts after each "\n", drops the "\n" and one "\r" before it,
keeps a non-empty last piece without "\n" and adds no empty line after a final
"\n". So a record ending in "\r" is replayed without that "\r", and a content
with k terminators inside (and none at its end) is replayed as k+1 records. -/
theorem replay_is_line_split (j : State) (filename : String) (content : Bytes)
    (visits : List (Bytes → Option Error))
    (hreg : j.journals filename = none) (hfile : j.os.files filename = some content)
    (hopen : j.os.fault Syscall.openRead filename = none)
    (hread : j.os.fault Syscall.read filename = none)
    (hlim : ∀ p ∈ refPieces [] content, p.length < MaxScanTokenSize)
    (hv : visits.length = (refLines content).length) :
    (Open j filename).2 = none ∧
    (replayAll (Open j filename).1 filename visits).2
      = List.zipWith (fun v l => (v l, [l])) visits (refLines content) ∧
    (((replayAll (Open j filename).1 filename visits).2.map (fun out => out.2)).flatten
      = refLines content) ∧
    ((∀ v ∈ visits, ∀ l, v l ≠ some Error.EOF) →
      ∀ out ∈ (replayAll (Open j filename).1 filename visits).2, out.1 ≠ some Error.EOF) ∧
    (∀ replay, (Replay (replayAll (Open j filename).1 filename visits).1 filename replay).2
      = (some Error.EOF, [])) ∧
    (∀ r, NL ∉ r → refLines (terminated (r ++ [CR])) = [r]) ∧
    (∀ c : Bytes, c.getLast? ≠ some NL →
      (refLines (terminated c)).length = c.count NL + 1) := by
  have hO := Open_success j filename content hreg hopen hfile
  have hj2 : ∃ j2 : State, Open j filename = (j2, none) ∧ j2.os = j.os ∧
      j2.journals filename = some { file := ⟨filename, 0⟩, scanner := NewScanner } :=
    ⟨_, hO, rfl, by simp⟩
  obtain ⟨j2, hO2, hos, hreg2⟩ := hj2
  rw [hO2]
  simp only
  obtain ⟨b1, b2⟩ := replayAll_refLines filename content.length content (Nat.le_refl _)
    visits j2 { file := ⟨filename, 0⟩, scanner := NewScanner } hv hlim hreg2 NewScanner_WF rfl
    (by rw [hos]; exact hread)
    (by simp [journalFile.unread, File.rest, NewScanner, hos, hfile])
  refine ⟨trivial, b1, ?_, ?_, b2, refLines_record_CR, refLines_count⟩
  · rw [b1]; exact visited_of_zipWith visits _ hv
  · intro hvis; rw [b1]; exact results_not_EOF visits _ hvis

theorem replay_is_line_split_witness :
    (replayAll (Open sampleWritten "j").1 "j" [fun _ => none, fun _ => some Error.ErrBusy]).2
      = [(none, [[97]]), (some Error.ErrBusy, [[98]])] ∧
    refLines [97, 10, 98, 10] = [[97], [98]] ∧
    (Replay (replayAll (Open sampleWritten "j").1 "j"
        [fun _ => none, fun _ => some Error.ErrBusy]).1 "j" (fun _ => none)).2
      = (some Error.EOF, []) := by
  have h := replay_is_line_split sampleWritten "j" [97, 10, 98, 10]
    [fun _ => none, fun _ => some Error.ErrBusy] rfl rfl rfl rfl (by decide) rfl
  exact ⟨h.2.1, rfl, h.2.2.2.2.1 _⟩

/-! ## Close and reopen -/

theorem State_ext (a b : State) (hos : a.os = b.os) (hj : ∀ n, a.journals n = b.journals n) :
    a = b := by
  cases a with
  | mk aos aj =>
    cases b with
    | mk bos bj =>
      simp only at hos hj
      have : aj = bj := funext hj
      rw [hos, this]

/-- Successive Replay calls on one name change neither the files nor the handle
of another name, and keep the name registered. -/
theorem replayAll_frame (filename : String) : ∀ (visits : List (Bytes → Option Error))
    (j : State),
    (replayAll j filename visits).1.os = j.os ∧
    (∀ n, n ≠ filename → (replayAll j filename visits).1.journals n = j.journals n) ∧
    (((replayAll j filename visits).1.journals filename).isSome
      = (j.journals filename).isSome) := by
  intro visits
  induction visits with
  | nil => intro j; exact ⟨rfl, fun _ _ => rfl, rfl⟩
  | cons v vs ih =>
    intro j
    obtain ⟨h1, h2, h3⟩ := Replay_journals j filename v
    obtain ⟨i1, i2, i3⟩ := ih (Replay j filename v).1
    simp only [replayAll]
    refine ⟨i1.trans h3, fun n hn => (i2 n hn).trans (h2 n hn), ?_⟩
    rw [i3]
    have := congrArg Option.isSome (h1 filename)
    simpa using this

theorem Close_state (j : State) (filename : String) :
    (Close j filename).1.os = j.os ∧
    (∀ n, (Close j filename).1.journals n = if n = filename then none else j.journals n) := by
  unfold Close
  cases h : j.journals filename with
  | none =>
    refine ⟨rfl, ?_⟩
    intro n
    by_cases hn : n = filename
    · rw [if_pos hn, hn]; exact h
    · rw [if_neg hn]
  | some jf => exact ⟨rfl, fun n => rfl⟩

/-- Closing after any number of Replay calls leaves the state that closing
before them would have left: the progress of the cursor is forgotten. -/
theorem Close_replayAll (j : State) (filename : String)
    (visits : List (Bytes → Option Error)) :
    (Close (replayAll j filename visits).1 filename).1 = (Close j filename).1 := by
  obtain ⟨f1, f2, _⟩ := replayAll_frame filename visits j
  obtain ⟨c1, c2⟩ := Close_state (replayAll j filename visits).1 filename
  obtain ⟨d1, d2⟩ := Close_state j filename
  apply State_ext
  · rw [c1, d1, f1]
  · intro n
    rw [c2, d2]
    by_cases hn : n = filename
    · rw [if_pos hn, if_pos hn]
    · rw [if_neg hn, if_neg hn, f2 n hn]

/-- An append to a name without a handle succeeds when neither its open nor its
write fails. -/
theorem Journal_ok (j : State) (filename : String) (content : Bytes)
    (hreg : j.journals filename = none)
    (hopen : j.os.fault Syscall.openAppend filename = none)
    (hwrite : j.os.fault Syscall.write filename = none) :
    (Journal j filename content).2 = none ∧
    (Journal j filename content).1.os.files filename
      = some ((j.os.files filename).getD [] ++ terminated content) := by
  have hJ : (Journal j filename content).2 = none := by
    unfold Journal
    simp only [hreg, Option.isSome_none, Bool.false_eq_true, if_false]
    unfold OpenFile
    simp only [hopen]
    cases hf : j.os.files filename <;> simp [File.Write, hwrite]
  have hJ2 : Journal j filename content = ((Journal j filename content).1, none) :=
    Prod.ext rfl hJ
  exact ⟨hJ, (Journal_success j _ filename content hJ2).2.2.1⟩

/-- C13: after any number of Replay calls on a name open for replay, Close finds
the handle (it does not return ErrNotFound), removes the name from the registry
and changes no stored byte and no other entry (it
leaves the state a Close before the Replay calls would have left). After it an
append to the name is not refused with ErrBusy and, when its open and write do
not fail, appends the terminated content; and Open, when the open does not fail,
succeeds with a fresh handle, from which the subsequent Replay calls deliver the
lines of the file again from the first line. -/
theorem close_then_reopen_restarts (j : State) (filename : String) (jf : journalFile)
    (visits : List (Bytes → Option Error)) (content : Bytes)
    (hreg : j.journals filename = some jf)
    (hfile : j.os.files filename = some content) :
    (Close (replayAll j filename visits).1 filename).2 ≠ some Error.ErrNotFound ∧
    (Close (replayAll j filename visits).1 filename).1 = (Close j filename).1 ∧
    (Close (replayAll j filename visits).1 filename).1.journals filename = none ∧
    (Close (replayAll j filename visits).1 filename).1.os = j.os ∧
    (∀ n, n ≠ filename →
      (Close (replayAll j filename visits).1 filename).1.journals n = j.journals n) ∧
    (∀ c, (Journal (Close (replayAll j filename visits).1 filename).1 filename c).2
        ≠ some Error.ErrBusy) ∧
    (j.os.fault Syscall.openAppend filename = none →
      j.os.fault Syscall.write filename = none →
      ∀ c, (Journal (Close (replayAll j filename visits).1 filename).1 filename c).2 = none ∧
        (Journal (Close (replayAll j filename visits).1 filename).1 filename c).1.os.files
          filename = some (content ++ terminated c)) ∧
    (j.os.fault Syscall.openRead filename = none →
      (Open (Close (replayAll j filename visits).1 filename).1 filename).2 = none ∧
      (Open (Close (replayAll j filename visits).1 filename).1 filename).1.journals filename
        = some { file := ⟨filename, 0⟩, scanner := NewScanner } ∧
      (j.os.fault Syscall.read filename = none →
        (∀ p ∈ refPieces [] content, p.length < MaxScanTokenSize) →
        ∀ visits2 : List (Bytes → Option Error),
          visits2.length = (refLines content).length →
          (replayAll (Open (Close (replayAll j filename visits).1 filename).1 filename).1
              filename visits2).2
            = List.zipWith (fun v l => (v l, [l])) visits2 (refLines content))) := by
  have hC := Close_replayAll j filename visits
  obtain ⟨d1, d2⟩ := Close_state j filename
  have hstill : (Close (replayAll j filename visits).1 filename).2
      ≠ some Error.ErrNotFound := by
    have h3 := (replayAll_frame filename visits j).2.2
    rw [hreg] at h3
    obtain ⟨jfk, hk⟩ := Option.isSome_iff_exists.mp h3
    unfold Close
    rw [hk]
    simp only [File.Close]
    split <;> simp
  refine ⟨hstill, ?_⟩
  rw [hC]
  have hnone : (Close j filename).1.journals filename = none := Close_unregisters j filename
  have hfile2 : (Close j filename).1.os.files filename = some content := by rw [d1]; exact hfile
  refine ⟨rfl, hnone, d1, ?_, ?_, ?_, ?_⟩
  · intro n hn; rw [d2, if_neg hn]
  · intro c
    exact Journal_unregistered_not_busy _ filename c hnone
  · intro ha hw c
    have := Journal_ok (Close j filename).1 filename c hnone (by rw [d1]; exact ha)
      (by rw [d1]; exact hw)
    rw [hfile2] at this
    exact this
  · intro ho
    have hO := Open_success (Close j filename).1 filename content hnone
      (by rw [d1]; exact ho) hfile2
    have hj2 : ∃ j2 : State, Open (Close j filename).1 filename = (j2, none) ∧ j2.os = j.os ∧
        j2.journals filename = some { file := ⟨filename, 0⟩, scanner := NewScanner } :=
      ⟨_, hO, d1, by simp⟩
    obtain ⟨j2, hO2, hos, hreg2⟩ := hj2
    rw [hO2]
    refine ⟨rfl, hreg2, ?_⟩
    intro hr hlim visits2 hv
    exact (replayAll_refLines filename content.length content (Nat.le_refl _) visits2 j2
      { file := ⟨filename, 0⟩, scanner := NewScanner } hv hlim hreg2 NewScanner_WF rfl
      (by rw [hos]; exact hr)
      (by simp [journalFile.unread, File.rest, NewScanner, hos, hfile])).1

theorem close_then_reopen_restarts_witness :
    (replayAll sampleOpened "j" [fun _ => none]).2 = [(none, [[97]])] ∧
    (Close (replayAll sampleOpened "j" [fun _ => none]).1 "j").2 = none ∧
    (replayAll (Open (Close (replayAll sampleOpened "j" [fun _ => none]).1 "j").1 "j").1 "j"
        [fun _ => none, fun _ => none]).2
      = [(none, [[97]]), (none, [[98]])] := by
  have h := close_then_reopen_restarts sampleOpened "j"
    { file := ⟨"j", 0⟩, scanner := NewScanner } [fun _ => none] [97, 10, 98, 10] rfl rfl
  exact ⟨by decide, by decide,
    (h.2.2.2.2.2.2.2 rfl).2.2 rfl (by decide) [fun _ => none, fun _ => none] rfl⟩

/-! ## The scope of the registry lock in an append -/

theorem JournalTraced_fst (j : State) (filename : String) (content : Bytes) :
    (JournalTraced j filename content).1 = Journal j filename content := by
  unfold JournalTraced Journal
  by_cases h : (j.journals filename).isSome = true
  · rw [if_pos h, if_pos h]
  · rw [if_neg h, if_neg h]
    cases ho : OpenFile j.os filename with
    | error e => rfl
    | ok p =>
      obtain ⟨os1, f⟩ := p
      rfl

/-- C15 (amended): an append to a name that is not open for replay takes the
registry lock first and releases it last: the lookup in the registry, the open
of the file and, when the open succeeds, the write and the close of the file all
happen while the lock is held, and no file I/O happens after the lock is
released. -/
theorem journal_holds_lock_across_io (j : State) (filename : String) (content : Bytes)
    (hreg : j.journals filename = none) :
    (JournalTraced j filename content).1 = Journal j filename content ∧
    ((JournalTraced j filename content).2
        = [Event.lock, Event.lookup filename, Event.openFile filename, Event.unlock] ∨
     (JournalTraced j filename content).2
        = [Event.lock, Event.lookup filename, Event.openFile filename, Event.write filename,
           Event.closeFile filename, Event.unlock]) ∧
    ((Journal j filename content).2 = none →
      (JournalTraced j filename content).2
        = [Event.lock, Event.lookup filename, Event.openFile filename, Event.write filename,
           Event.closeFile filename, Event.unlock]) ∧
    ioWhileLocked false (JournalTraced j filename content).2 = true ∧
    ioWhileUnlocked false (JournalTraced j filename content).2 = false := by
  refine ⟨JournalTraced_fst j filename content, ?_⟩
  unfold JournalTraced Journal
  simp only [hreg, Option.isSome_none, Bool.false_eq_true, if_false]
  cases ho : OpenFile j.os filename with
  | error e =>
    refine ⟨Or.inl rfl, ?_, rfl, rfl⟩
    intro h; simp at h
  | ok p =>
    obtain ⟨os1, f⟩ := p
    exact ⟨Or.inr rfl, fun _ => rfl, rfl, rfl⟩

theorem journal_holds_lock_across_io_witness :
    (JournalTraced (NewJournal quietOS) "j" [97]).2
      = [Event.lock, Event.lookup "j", Event.openFile "j", Event.write "j",
         Event.closeFile "j", Event.unlock] ∧
    ioWhileUnlocked false (JournalTraced (NewJournal quietOS) "j" [97]).2 = false := by
  have h := journal_holds_lock_across_io (NewJournal quietOS) "j" [97] rfl
  exact ⟨h.2.2.1 (by decide), h.2.2.2.2⟩

/-- C15 as stated fails: in the append of "a" to the new name "j" the file is
opened, written and closed while the registry lock is held; the lock is released
only after the file is closed. -/
theorem journal_io_under_lock :
    (JournalTraced (NewJournal quietOS) "j" [97]).1.2 = none ∧
    (JournalTraced (NewJournal quietOS) "j" [97]).2
      = [Event.lock, Event.lookup "j", Event.openFile "j", Event.write "j",
         Event.closeFile "j", Event.unlock] ∧
    ioWhileLocked false (JournalTraced (NewJournal quietOS) "j" [97]).2 = true := by
  decide

/-! ## Interleavings of calls on several names -/

theorem Read_congr (os os2 : OS) (f : File) (len : Nat)
    (hfiles : os.files f.name = os2.files f.name)
    (hfault : os.fault Syscall.read f.name = os2.fault Syscall.read f.name) :
    f.Read os len = f.Read os2 len := by
  unfold File.Read
  rw [hfiles, hfault]

theorem readStep_congr (os os2 : OS) (f : File) (s : Scanner)
    (hfiles : os.files f.name = os2.files f.name)
    (hfault : os.fault Syscall.read f.name = os2.fault Syscall.read f.name) :
    s.readStep os f = s.readStep os2 f := by
  unfold Scanner.readStep Scanner.fill
  simp only [Read_congr os os2 f _ hfiles hfault]

theorem scanLoop_congr (os os2 : OS) : ∀ (fuel : Nat) (f : File) (s : Scanner),
    os.files f.name = os2.files f.name →
    os.fault Syscall.read f.name = os2.fault Syscall.read f.name →
    Scanner.scanLoop os fuel f s = Scanner.scanLoop os2 fuel f s := by
  intro fuel
  induction fuel with
  | zero => intro f s _ _; rfl
  | succ n ih =>
    intro f s hfiles hfault
    unfold Scanner.scanLoop
    cases hts : s.tokenStep with
    | mk b s1 =>
      cases b with
      | some b => rfl
      | none =>
        simp only
        rw [← readStep_congr os os2 f s1 hfiles hfault]
        have hn := readStep_name os f s1
        cases hrs : s1.readStep os f with
        | mk b2 p =>
          obtain ⟨f2, s2⟩ := p
          rw [hrs] at hn
          simp only at hn
          cases b2 with
          | some b2 => rfl
          | none =>
            simp only
            exact ih f2 s2 (by rw [hn]; exact hfiles) (by rw [hn]; exact hfault)

theorem Scan_congr (os os2 : OS) (f : File) (s : Scanner)
    (hfiles : os.files f.name = os2.files f.name)
    (hfault : os.fault Syscall.read f.name = os2.fault Syscall.read f.name) :
    s.Scan os f = s.Scan os2 f := by
  unfold Scanner.Scan
  have hfuel : scanFuel os f = scanFuel os2 f := by
    unfold scanFuel; rw [hfiles]
  rw [hfuel, scanLoop_congr os os2 _ f s hfiles hfault]

theorem agreeOn_refl (n : String) (j : State) : agreeOn n j j :=
  ⟨rfl, rfl, fun _ => rfl, rfl⟩

theorem agreeOn_trans {n : String} {a b c : State} (h1 : agreeOn n a b) (h2 : agreeOn n b c) :
    agreeOn n a c :=
  ⟨h1.1.trans h2.1, h1.2.1.trans h2.2.1, fun x => (h1.2.2.1 x).trans (h2.2.2.1 x),
    h1.2.2.2.trans h2.2.2.2⟩

/-- What an append leaves alone: the registry, the failing system calls, the
file every path names, and the bytes of every file but the one its name is a
path of. -/
theorem Journal_frame (j : State) (n : String) (c : Bytes) :
    (Journal j n c).1.journals = j.journals ∧
    (Journal j n c).1.os.fault = j.os.fault ∧
    (Journal j n c).1.os.shortWrite = j.os.shortWrite ∧
    (Journal j n c).1.os.resolve = j.os.resolve ∧
    (∀ m, j.os.resolve m ≠ j.os.resolve n → (Journal j n c).1.os.files m = j.os.files m) := by
  unfold Journal
  by_cases hreg : (j.journals n).isSome = true
  · rw [if_pos hreg]
    exact ⟨rfl, rfl, rfl, rfl, fun _ _ => rfl⟩
  · rw [if_neg hreg]
    unfold OpenFile
    cases hf : j.os.fault Syscall.openAppend n with
    | some errno => exact ⟨rfl, rfl, rfl, rfl, fun _ _ => rfl⟩
    | none =>
      simp only
      cases hfile : j.os.files n with
      | some old =>
        cases hw : j.os.fault Syscall.write n with
        | some errno =>
          simp only [File.Write, hw]
          refine ⟨?_, ?_, ?_, ?_, fun m hm => by simp [setFile_files, hm]⟩ <;>
            first | rfl | trivial
        | none =>
          simp only [File.Write, hw]
          refine ⟨?_, ?_, ?_, ?_, fun m hm => by simp [setFile_files, hm]⟩ <;>
            first | rfl | trivial
      | none =>
        cases hw : j.os.fault Syscall.write n with
        | some errno =>
          simp only [File.Write, setFile_fault, hw]
          refine ⟨?_, ?_, ?_, ?_, fun m hm => by simp [setFile_files, hm]⟩ <;>
            first | rfl | trivial
        | none =>
          simp only [File.Write, setFile_fault, hw]
          refine ⟨?_, ?_, ?_, ?_, fun m hm => by simp [setFile_files, hm]⟩ <;>
            first | rfl | trivial

/-- The result of an append and the bytes it leaves in the file of its name
depend only on what the state holds for that name. -/
theorem Journal_congr (j k : State) (n : String) (c : Bytes) (h : agreeOn n j k) :
    (Journal j n c).2 = (Journal k n c).2 ∧
    (Journal j n c).1.os.files n = (Journal k n c).1.os.files n := by
  obtain ⟨h1, h2, h3, h4⟩ := h
  unfold Journal
  rw [h2]
  by_cases hreg : (k.journals n).isSome = true
  · rw [if_pos hreg, if_pos hreg]
    exact ⟨rfl, h1⟩
  · rw [if_neg hreg, if_neg hreg]
    unfold OpenFile
    rw [h3 Syscall.openAppend, h1]
    cases hf : k.os.fault Syscall.openAppend n with
    | some errno => exact ⟨rfl, h1⟩
    | none =>
      simp only
      cases hfile : k.os.files n with
      | some old =>
        simp only [File.Write]
        rw [h3 Syscall.write, h1, hfile, h4]
        cases hw : k.os.fault Syscall.write n with
        | some errno => simp
        | none => simp
      | none =>
        simp only [File.Write, setFile_fault, setFile_shortWrite, setFile_files_same]
        rw [h3 Syscall.write, h4]
        cases hw : k.os.fault Syscall.write n with
        | some errno => simp
        | none => simp

theorem Open_frame (j : State) (n : String) :
    (Open j n).1.os = j.os ∧ (∀ m, m ≠ n → (Open j n).1.journals m = j.journals m) := by
  unfold Open
  by_cases hreg : (j.journals n).isSome = true
  · rw [if_pos hreg]; exact ⟨rfl, fun _ _ => rfl⟩
  · rw [if_neg hreg]
    cases ho : osOpen j.os n with
    | error e => exact ⟨rfl, fun _ _ => rfl⟩
    | ok f => exact ⟨rfl, fun m hm => by simp [hm]⟩

theorem Open_congr (j k : State) (n : String) (h : agreeOn n j k) :
    (Open j n).2 = (Open k n).2 ∧ (Open j n).1.journals n = (Open k n).1.journals n := by
  obtain ⟨h1, h2, h3, h4⟩ := h
  unfold Open
  rw [h2]
  by_cases hreg : (k.journals n).isSome = true
  · rw [if_pos hreg, if_pos hreg]; exact ⟨rfl, h2⟩
  · rw [if_neg hreg, if_neg hreg]
    have ho : osOpen j.os n = osOpen k.os n := by
      unfold osOpen; rw [h3 Syscall.openRead, h1]
    rw [ho]
    cases hk : osOpen k.os n with
    | error e => exact ⟨rfl, h2⟩
    | ok f => simp

theorem Close_congr (j k : State) (n : String) (h : agreeOn n j k)
    (hname : ∀ jf, k.journals n = some jf → jf.file.name = n) :
    (Close j n).2 = (Close k n).2 ∧ (Close j n).1.journals n = (Close k n).1.journals n := by
  obtain ⟨h1, h2, h3, h4⟩ := h
  refine ⟨?_, by rw [Close_unregisters, Close_unregisters]⟩
  unfold Close
  rw [h2]
  cases hk : k.journals n with
  | none => rfl
  | some jf =>
    simp only [File.Close]
    rw [hname jf hk, h3 Syscall.close]

theorem Replay_congr (j k : State) (n : String) (v : Bytes → Option Error) (h : agreeOn n j k)
    (hname : ∀ jf, k.journals n = some jf → jf.file.name = n) :
    (Replay j n v).2 = (Replay k n v).2 ∧
    (Replay j n v).1.journals n = (Replay k n v).1.journals n := by
  obtain ⟨h1, h2, h3, h4⟩ := h
  cases hk : k.journals n with
  | none =>
    rw [Replay_unregistered j n v (h2.trans hk), Replay_unregistered k n v hk]
    exact ⟨rfl, h2⟩
  | some jf =>
    have hj : j.journals n = some jf := h2.trans hk
    have hn := hname jf hk
    have hs : jf.scanner.Scan j.os jf.file = jf.scanner.Scan k.os jf.file :=
      Scan_congr j.os k.os jf.file jf.scanner (by rw [hn]; exact h1)
        (by rw [hn]; exact h3 Syscall.read)
    cases hsc : jf.scanner.Scan k.os jf.file with
    | mk ok p =>
      obtain ⟨f1, s1⟩ := p
      rw [hsc] at hs
      cases ok with
      | true =>
        rw [Replay_of_Scan_true j n jf f1 s1 hj hs v, Replay_of_Scan_true k n jf f1 s1 hk hsc v]
        simp
      | false =>
        rw [Replay_of_Scan_false j n jf f1 s1 hj hs v,
          Replay_of_Scan_false k n jf f1 s1 hk hsc v]
        simp

theorem Journal_WF (j : State) (n : String) (c : Bytes) (hwf : j.WF) : (Journal j n c).1.WF := by
  intro m jf h
  rw [(Journal_frame j n c).1] at h
  exact hwf m jf h

theorem Open_WF (j : State) (filename : String) (hwf : j.WF) : (Open j filename).1.WF := by
  unfold Open
  split
  · exact hwf
  · cases ho : osOpen j.os filename with
    | error e => exact hwf
    | ok f =>
      have hname : f.name = filename := by
        unfold osOpen at ho
        split at ho
        · simp at ho
        · split at ho
          · simp only [Except.ok.injEq] at ho; rw [← ho]
          · simp at ho
      intro n jf h
      simp only at h
      by_cases hn : n = filename
      · rw [if_pos hn] at h
        simp only [Option.some.injEq] at h
        rw [← h, hn]
        exact ⟨hname, NewScanner_WF⟩
      · rw [if_neg hn] at h
        exact hwf n jf h

theorem Close_WF (j : State) (filename : String) (hwf : j.WF) : (Close j filename).1.WF := by
  intro n jf h
  rw [(Close_state j filename).2 n] at h
  by_cases hn : n = filename
  · rw [if_pos hn] at h; simp at h
  · rw [if_neg hn] at h
    exact hwf n jf h

theorem Replay_WF (j : State) (filename : String) (replay : Bytes → Option Error)
    (hwf : j.WF) : (Replay j filename replay).1.WF := by
  intro n jf h
  by_cases hn : n = filename
  · cases hreg : j.journals filename with
    | none =>
      rw [Replay_unregistered j filename replay hreg] at h
      exact hwf n jf h
    | some jf0 =>
      rw [hn, Replay_handle j filename jf0 hreg replay] at h
      simp only [Option.some.injEq] at h
      obtain ⟨h1, h2⟩ := hwf filename jf0 hreg
      rw [← h, hn]
      exact ⟨(Scan_name j.os jf0.file jf0.scanner).trans h1,
        Scan_WF j.os jf0.file jf0.scanner h2⟩
  · rw [(Replay_journals j filename replay).2.1 n hn] at h
    exact hwf n jf h

theorem step_WF (j : State) (op : Op) (hwf : j.WF) : (step j op).1.WF := by
  cases op with
  | Journal n c => exact Journal_WF j n c hwf
  | Open n => exact Open_WF j n hwf
  | Replay n v => exact Replay_WF j n v hwf
  | Close n => exact Close_WF j n hwf

/-- No call changes the failing system calls of the operating system. -/
theorem step_fault (j : State) (op : Op) :
    (step j op).1.os.fault = j.os.fault ∧ (step j op).1.os.shortWrite = j.os.shortWrite := by
  cases op with
  | Journal n c => exact ⟨(Journal_frame j n c).2.1, (Journal_frame j n c).2.2.1⟩
  | Open n =>
    have h := (Open_frame j n).1
    exact ⟨congrArg OS.fault h, congrArg OS.shortWrite h⟩
  | Replay n v =>
    have h := (Replay_journals j n v).2.2
    exact ⟨congrArg OS.fault h, congrArg OS.shortWrite h⟩
  | Close n =>
    have h := (Close_state j n).1
    exact ⟨congrArg OS.fault h, congrArg OS.shortWrite h⟩

/-- No call changes which file a path names. -/
theorem step_resolve (j : State) (op : Op) : (step j op).1.os.resolve = j.os.resolve := by
  cases op with
  | Journal n c => exact (Journal_frame j n c).2.2.2.1
  | Open n => exact congrArg OS.resolve (Open_frame j n).1
  | Replay n v => exact congrArg OS.resolve (Replay_journals j n v).2.2
  | Close n => exact congrArg OS.resolve (Close_state j n).1

/-- A call on one name does not change the handle of another name. -/
theorem step_other_handle (j : State) (op : Op) (n : String) (hn : op.filename ≠ n) :
    (step j op).1.journals n = j.journals n := by
  have hn2 : n ≠ op.filename := fun e => hn e.symm
  cases op with
  | Journal m c => exact congrFun (Journal_frame j m c).1 n
  | Open m => exact (Open_frame j m).2 n hn2
  | Replay m v => exact (Replay_journals j m v).2.1 n hn2
  | Close m =>
    have h := Close_state j m
    have e : (step j (Op.Close m)).1 = (Gitbe.Close j m).1 := rfl
    have hn3 : ¬ n = m := hn2
    rw [e, h.2 n, if_neg hn3]

/-- A call on a name that is a path of one file does not change the bytes seen
through a path of another file. -/
theorem step_other_file (j : State) (op : Op) (n : String)
    (hr : j.os.resolve op.filename ≠ j.os.resolve n) :
    (step j op).1.os.files n = j.os.files n := by
  have hr2 : j.os.resolve n ≠ j.os.resolve op.filename := fun e => hr e.symm
  cases op with
  | Journal m c => exact (Journal_frame j m c).2.2.2.2 n hr2
  | Open m => exact congrFun (congrArg OS.files (Open_frame j m).1) n
  | Replay m v => exact congrFun (congrArg OS.files (Replay_journals j m v).2.2) n
  | Close m => exact congrFun (congrArg OS.files (Close_state j m).1) n

/-- A call on one name changes neither the file nor the handle of another name,
when the two names are paths of different files. -/
theorem step_other (j : State) (op : Op) (n : String)
    (hr : j.os.resolve op.filename ≠ j.os.resolve n) :
    (step j op).1.os.files n = j.os.files n ∧ (step j op).1.journals n = j.journals n :=
  ⟨step_other_file j op n hr,
    step_other_handle j op n (fun e => hr (congrArg j.os.resolve e))⟩

theorem step_other_agree (j : State) (op : Op) (n : String)
    (hr : j.os.resolve op.filename ≠ j.os.resolve n) :
    agreeOn n (step j op).1 j := by
  obtain ⟨h1, h2⟩ := step_other j op n hr
  obtain ⟨h3, h4⟩ := step_fault j op
  exact ⟨h1, h2, fun c => by rw [h3], by rw [h4]⟩

/-- The result of a call on a name, and what it leaves for that name, depend
only on what the state holds for that name. -/
theorem step_same (j k : State) (op : Op) (n : String) (hn : op.filename = n)
    (h : agreeOn n j k) (hname : ∀ jf, k.journals n = some jf → jf.file.name = n) :
    (step j op).2 = (step k op).2 ∧ agreeOn n (step j op).1 (step k op).1 := by
  obtain ⟨f1, s1⟩ := step_fault j op
  obtain ⟨f2, s2⟩ := step_fault k op
  have hfault : ∀ c, (step j op).1.os.fault c n = (step k op).1.os.fault c n := by
    intro c; rw [f1, f2]; exact h.2.2.1 c
  have hshort : (step j op).1.os.shortWrite n = (step k op).1.os.shortWrite n := by
    rw [s1, s2]; exact h.2.2.2
  cases op with
  | Journal m c =>
    simp only [Op.filename] at hn
    subst hn
    obtain ⟨c1, c2⟩ := Journal_congr j k m c h
    refine ⟨by simp only [step, c1], c2, ?_, hfault, hshort⟩
    simp only [step]
    rw [(Journal_frame j m c).1, (Journal_frame k m c).1]
    exact h.2.1
  | Open m =>
    simp only [Op.filename] at hn
    subst hn
    obtain ⟨c1, c2⟩ := Open_congr j k m h
    refine ⟨by simp only [step, c1], ?_, c2, hfault, hshort⟩
    simp only [step]
    rw [(Open_frame j m).1, (Open_frame k m).1]
    exact h.1
  | Replay m v =>
    simp only [Op.filename] at hn
    subst hn
    obtain ⟨c1, c2⟩ := Replay_congr j k m v h hname
    refine ⟨c1, ?_, c2, hfault, hshort⟩
    simp only [step]
    rw [(Replay_journals j m v).2.2, (Replay_journals k m v).2.2]
    exact h.1
  | Close m =>
    simp only [Op.filename] at hn
    subst hn
    obtain ⟨c1, c2⟩ := Close_congr j k m h hname
    refine ⟨by simp only [step, c1], ?_, c2, hfault, hshort⟩
    simp only [step]
    rw [(Close_state j m).1, (Close_state k m).1]
    exact h.1

/-- In any interleaving in which every other name is a path of another file
than the name, the results of the calls on the name are those of the calls on
that name executed alone, and the file and the handle of that name end up the
same. -/
theorem run_project (n : String) : ∀ (ops : List Op) (j k : State),
    agreeOn n j k → k.WF →
    (∀ op ∈ ops, op.filename ≠ n → j.os.resolve op.filename ≠ j.os.resolve n) →
    (run j ops).2.filter (fun x => decide (x.1 = n))
      = (run k (ops.filter (fun op => decide (op.filename = n)))).2 ∧
    agreeOn n (run j ops).1 (run k (ops.filter (fun op => decide (op.filename = n)))).1 := by
  intro ops
  induction ops with
  | nil => intro j k h _ _; exact ⟨rfl, h⟩
  | cons op ops ih =>
    intro j k h hwf hdist
    have hdist2 : ∀ o ∈ ops, o.filename ≠ n →
        (step j op).1.os.resolve o.filename ≠ (step j op).1.os.resolve n := by
      intro o ho hne
      rw [step_resolve]
      exact hdist o (List.mem_cons_of_mem _ ho) hne
    by_cases hn : op.filename = n
    · have hd : decide (op.filename = n) = true := by simpa using hn
      obtain ⟨s1, s2⟩ := step_same j k op n hn h (fun jf hjf => (hwf n jf hjf).1)
      obtain ⟨i1, i2⟩ := ih (step j op).1 (step k op).1 s2 (step_WF k op hwf) hdist2
      simp only [run, List.filter_cons, hd, if_true]
      exact ⟨by rw [i1, s1], i2⟩
    · have hd : decide (op.filename = n) = false := by simpa using hn
      obtain ⟨i1, i2⟩ := ih (step j op).1 k
        (agreeOn_trans (step_other_agree j op n (hdist op (List.mem_cons_self _ _) hn)) h)
        hwf hdist2
      simp only [run, List.filter_cons, hd]
      exact ⟨i1, i2⟩

theorem run_append : ∀ (a b : List Op) (j : State),
    run j (a ++ b) = ((run (run j a).1 b).1, (run j a).2 ++ (run (run j a).1 b).2) := by
  intro a
  induction a with
  | nil => intro b j; rfl
  | cons op ops ih =>
    intro b j
    have e1 : run j (op :: (ops ++ b))
        = ((run (step j op).1 (ops ++ b)).1,
           (op.filename, (step j op).2) :: (run (step j op).1 (ops ++ b)).2) := rfl
    have e2 : run j (op :: ops)
        = ((run (step j op).1 ops).1,
           (op.filename, (step j op).2) :: (run (step j op).1 ops).2) := rfl
    rw [List.cons_append, e1, ih, e2]
    rfl

theorem run_journals (n : String) : ∀ (records : List Bytes) (j : State),
    run j (records.map (Op.Journal n))
      = ((journalAll j n records).1,
         (journalAll j n records).2.map (fun e => (n, e, []))) := by
  intro records
  induction records with
  | nil => intro j; rfl
  | cons r rs ih =>
    intro j
    simp only [List.map_cons, run, journalAll, ih, step, Op.filename]

theorem run_replays (n : String) : ∀ (visits : List (Bytes → Option Error)) (j : State),
    run j (visits.map (Op.Replay n))
      = ((replayAll j n visits).1, (replayAll j n visits).2.map (fun r => (n, r))) := by
  intro visits
  induction visits with
  | nil => intro j; rfl
  | cons v vs ih =>
    intro j
    simp only [List.map_cons, run, replayAll, ih, step, Op.filename]

/-- Appends to a name without a handle all succeed when no open and no write on
the name fails. -/
theorem journalAll_ok (n : String) : ∀ (records : List Bytes) (j : State),
    j.journals n = none → j.os.fault Syscall.openAppend n = none →
    j.os.fault Syscall.write n = none →
    (journalAll j n records).2 = records.map (fun _ => none) := by
  intro records
  induction records with
  | nil => intro j _ _ _; rfl
  | cons r rs ih =>
    intro j hreg ho hw
    obtain ⟨f1, f2, _, _⟩ := Journal_frame j n r
    have h1 := (Journal_ok j n r hreg ho hw).1
    have h2 := ih (Journal j n r).1 (by rw [f1]; exact hreg) (by rw [f2]; exact ho)
      (by rw [f2]; exact hw)
    simp only [journalAll, List.map_cons, h1, h2]

/-- The calls of one name executed alone: appends of the records, Open, one
Replay per record, one more Replay, and whatever follows. -/
theorem run_single (j : State) (n : String) (records : List Bytes)
    (visits : List (Bytes → Option Error)) (vlast : Bytes → Option Error) (rest : List Op)
    (hfile : j.os.files n = none) (hreg : j.journals n = none)
    (hfault : ∀ c, j.os.fault c n = none) (hne : records ≠ [])
    (hrec : ∀ r ∈ records, NL ∉ r ∧ r.getLast? ≠ some CR ∧ r.length < MaxScanTokenSize)
    (hv : visits.length = records.length) :
    ∃ restResults : List (Option Error × List Bytes),
      (run j (records.map (Op.Journal n) ++
          Op.Open n :: (visits.map (Op.Replay n) ++ Op.Replay n vlast :: rest))).2.map
        (fun x => x.2)
      = records.map (fun _ => (none, [])) ++
          (none, []) :: (List.zipWith (fun v r => (v r, [r])) visits records ++
            (some Error.EOF, []) :: restResults) := by
  have hok := journalAll_ok n records j hreg (hfault _) (hfault _)
  obtain ⟨a1, a2, a3, a4⟩ := journalAll_success n records j (fun r hr => (hrec r hr).1)
    (by rw [hok]; intro e he; simp at he; exact he.2)
  obtain ⟨content, hc⟩ := Option.isSome_iff_exists.mp (a4 hne)
  have hcontent : content = linesOf records := by
    rw [hc, hfile] at a3
    simpa using a3
  have hO := Open_success (journalAll j n records).1 n content
    (by rw [a1]; exact hreg) (by rw [a2]; exact hfault _) hc
  have hj2 : ∃ j2 : State, Open (journalAll j n records).1 n = (j2, none) ∧
      j2.os = (journalAll j n records).1.os ∧
      j2.journals n = some { file := ⟨n, 0⟩, scanner := NewScanner } :=
    ⟨_, hO, rfl, by simp⟩
  obtain ⟨j2, hO2, hos, hreg2⟩ := hj2
  obtain ⟨b1, b2⟩ := replayAll_lines n records visits j2
    { file := ⟨n, 0⟩, scanner := NewScanner } hv hrec hreg2 NewScanner_WF rfl
    (by rw [hos, a2]; exact hfault _)
    (by simp [journalFile.unread, File.rest, NewScanner, hos, hc, hcontent])
  refine ⟨(run (Replay (replayAll j2 n visits).1 n vlast).1 rest).2.map (fun x => x.2), ?_⟩
  rw [run_append, run_journals]
  simp only [run, step, Op.filename, hO2, run_append, run_replays, hok, b1, b2,
    List.map_append, List.map_cons, List.map_map]
  congr 1
  simp [Function.comp_def]

theorem NewJournal_WF (os : OS) : (NewJournal os).WF := by
  intro n jf h
  simp [NewJournal] at h

/-- C14 (amended): in any sequential interleaving of calls on any names in which
every name other than n is a path of another file than n (different names are
different files), started in a state in which the name n has no file and no
handle and no system call on n fails, in which n receives at least one record,
every record without "\n" inside, not ending in "\r" and shorter than
`MaxScanTokenSize`, and is afterwards opened and replayed: every append to n and
the Open succeed, the Replay calls on n deliver exactly the records of n in the
order of their appends, and the Replay after the last record returns EOF; the
calls on the other names change nothing of this. A call on a name never changes
the handle (and so the cursor) of another name, and never changes the stored
bytes of a name that is a path of another file. -/
theorem interleaved_names_round_trip (j : State) (ops : List Op) (n : String)
    (records : List Bytes) (visits : List (Bytes → Option Error))
    (vlast : Bytes → Option Error) (rest : List Op)
    (hwf : j.WF) (hfile : j.os.files n = none) (hreg : j.journals n = none)
    (hfault : ∀ c, j.os.fault c n = none) (hne : records ≠ [])
    (hrec : ∀ r ∈ records, NL ∉ r ∧ r.getLast? ≠ some CR ∧ r.length < MaxScanTokenSize)
    (hv : visits.length = records.length)
    (hdist : ∀ op ∈ ops, op.filename ≠ n → j.os.resolve op.filename ≠ j.os.resolve n)
    (hops : ops.filter (fun op => decide (op.filename = n))
      = records.map (Op.Journal n) ++
          Op.Open n :: (visits.map (Op.Replay n) ++ Op.Replay n vlast :: rest)) :
    (∃ restResults : List (Option Error × List Bytes),
      ((run j ops).2.filter (fun x => decide (x.1 = n))).map (fun x => x.2)
        = records.map (fun _ => (none, [])) ++
            (none, []) :: (List.zipWith (fun v r => (v r, [r])) visits records ++
              (some Error.EOF, []) :: restResults)) ∧
    (∀ (k : State) (op : Op), op.filename ≠ n →
      (step k op).1.journals n = k.journals n) ∧
    (∀ (k : State) (op : Op), k.os.resolve op.filename ≠ k.os.resolve n →
      (step k op).1.os.files n = k.os.files n) := by
  refine ⟨?_, fun k op hn => step_other_handle k op n hn,
    fun k op hr => step_other_file k op n hr⟩
  obtain ⟨p1, _⟩ := run_project n ops j j (agreeOn_refl n j) hwf hdist
  rw [p1, hops]
  exact run_single j n records visits vlast rest hfile hreg hfault hne hrec hv

theorem interleaved_names_round_trip_witness :
    (∀ op ∈ sampleInterleaving, op.filename ≠ "j" →
      (NewJournal aliasOS).os.resolve op.filename ≠ (NewJournal aliasOS).os.resolve "j") ∧
    ∃ restResults : List (Option Error × List Bytes),
      ((run (NewJournal aliasOS) sampleInterleaving).2.filter
          (fun x => decide (x.1 = "j"))).map (fun x => x.2)
        = [(none, []), (none, []), (none, []), (none, [[97]]), (none, [[98]]),
           (some Error.EOF, [])] ++ restResults :=
  ⟨by decide,
   (interleaved_names_round_trip (NewJournal aliasOS)
    sampleInterleaving "j" [[97], [98]] [fun _ => none, fun _ => none] (fun _ => none)
    [Op.Close "j"] (NewJournal_WF aliasOS) rfl rfl (fun _ => rfl) (by decide) (by decide)
    rfl (by decide) rfl).1⟩

/-- C14 as stated fails: of two names written in an interleaving, "j" receives
the record "a\r" (no "\n" inside); when "j" is opened and replayed, its Replay
passes "a" to the callback, not "a\r". -/
theorem interleaved_loses_carriage_return :
    (run (NewJournal quietOS)
      [Op.Journal "j" [97, 13], Op.Journal "k" [98], Op.Open "k", Op.Open "j",
       Op.Replay "k" (fun _ => none), Op.Replay "j" (fun _ => none)]).2
      = [("j", none, []), ("k", none, []), ("k", none, []), ("j", none, []),
         ("k", none, [[98]]), ("j", none, [[97]])] := by
  decide

/-- Two names that are paths of one file do interleave: where "./j" names the
file "j", the appends `Journal("j", "a")` and `Journal("./j", "x")` both succeed,
the second one changes the bytes stored under the name "j", and "j", opened
and replayed, delivers "a" and then "x" instead of returning EOF at its second
Replay. The handle of "j" is checked under the name as written, so an append
to "./j" is not refused while "j" is open. -/
theorem aliased_names_share_a_file :
    (run (NewJournal aliasOS)
      [Op.Journal "j" [97], Op.Journal "./j" [120], Op.Open "j",
       Op.Replay "j" (fun _ => none), Op.Replay "j" (fun _ => none)]).2
      = [("j", none, []), ("./j", none, []), ("j", none, []),
         ("j", none, [[97]]), ("j", none, [[120]])] ∧
    (Journal (NewJournal aliasOS) "j" [97]).1.os.files "j" = some [97, 10] ∧
    (Journal (Journal (NewJournal aliasOS) "j" [97]).1 "./j" [120]).1.os.files "j"
      = some [97, 10, 120, 10] ∧
    (Journal (Open (Journal (NewJournal aliasOS) "j" [97]).1 "j").1 "./j" [120]).2 = none := by
  decide

end Gitbe
